import Mathlib

/-!
Verification of the skip-list + arena repository.

The skip list (src/lib.rs) is a pointer structure; we embed it shallowly by
making the heap explicit: nodes live in a store (a list of nodes), and a
pointer is either `none` (null) or `some a` where `a` is an index into the
store.  The head sentinel is the node at index 0.  Arena allocation of nodes
is modelled by appending to the store, so a freshly allocated node always
gets a fresh address, exactly as the bump allocator guarantees.

The writer's RNG (`StdRng` seeded with a constant) is abstracted by its
observable output: `random_height` is modelled as a function of the stream of
`gen_range(0..K_BRANCHING)` draws, and reachable states quantify over all
draw streams.

The arena (src/arena.rs) is modelled with numeric addresses.  The underlying
allocator (`std::alloc::alloc`) is an external collaborator; it is modelled
as an oracle `fresh_blocks : Nat → Nat` giving the address of the i-th block
request.  The code requests `Layout::from_size_align(block_bytes, 1)`, i.e.
alignment 1, so the oracle is unconstrained.

The search/insert loops of the Rust code are while-loops; they are embedded
with explicit fuel (`s.nodes.length` steps per level, enough because a level
walk visits strictly increasing keys).  Fuel sufficiency is proved, not
assumed, in the lemmas below.
-/

namespace SkipListRust

/-! ## The skip-list model (src/lib.rs) -/

def MAX_HEIGHT : Nat := 12

def K_BRANCHING : Nat := 4

/-- A node: an immutable key and the forward-pointer array (`next`), whose
length is the node's height. -/
structure Node (K : Type) where
  key : K
  next : List (Option Nat)

instance {K : Type} [Inhabited K] : Inhabited (Node K) := ⟨⟨default, []⟩⟩

/-- The skip list: the node store (head at index 0) and the current max
height.  The arena that owns the nodes is modelled by the store itself. -/
structure SkipList (K : Type) where
  nodes : List (Node K)
  max_height : Nat

variable {K : Type} [LinearOrder K] [Inhabited K]

def nodeAt (s : SkipList K) (a : Nat) : Node K := s.nodes.getD a default

def keyAt (s : SkipList K) (a : Nat) : K := (nodeAt s a).key

def heightAt (s : SkipList K) (a : Nat) : Nat := (nodeAt s a).next.length

/-- `Node::next(level)`: the level-`level` forward pointer of node `a`. -/
def nextAt (s : SkipList K) (a : Nat) (level : Nat) : Option Nat :=
  (nodeAt s a).next.getD level none

/-- `SkipList::new`: a head node with key `K::default()` and `MAX_HEIGHT`
null forward pointers; `max_height` starts at 1. -/
def mkSkipList (K : Type) [Inhabited K] : SkipList K :=
  ⟨[⟨default, List.replicate MAX_HEIGHT none⟩], 1⟩

/-- `SkipList::key_is_after_node`: null maps to `false`, otherwise compare
the node's key with `key` by strict `<`. -/
def key_is_after_node (s : SkipList K) (k : K) (node : Option Nat) : Bool :=
  match node with
  | none => false
  | some a => decide (keyAt s a < k)

/-- One level of the search loop: advance `x` along level `level` while the
successor exists and its key is `< k` (the `x = next` branch of the loop in
`find_greater_or_equal` / `find_less_than`). -/
def walkLevel (s : SkipList K) (k : K) (level : Nat) : Nat → Nat → Nat
  | 0, x => x
  | fuel+1, x =>
    let nxt := nextAt s x level
    if key_is_after_node s k nxt then walkLevel s k level fuel (nxt.getD 0) else x

/-- The descent of `find_greater_or_equal` from `level` down to 0: at each
level walk right, record `prev[level] = x`, descend; at level 0 return the
level-0 successor. -/
def find_ge_level (s : SkipList K) (k : K) :
    Nat → Nat → List (Option Nat) → Option Nat × List (Option Nat)
  | 0, x, prev =>
    let x2 := walkLevel s k 0 s.nodes.length x
    (nextAt s x2 0, prev.set 0 (some x2))
  | level+1, x, prev =>
    let x2 := walkLevel s k (level+1) s.nodes.length x
    find_ge_level s k level x2 (prev.set (level+1) (some x2))

/-- `SkipList::find_greater_or_equal`: start at the head, at level
`max_height - 1`.  The optional `prev` output array is always threaded; a
caller that passes `None` in Rust simply ignores the second component. -/
def find_greater_or_equal (s : SkipList K) (k : K) (prev : List (Option Nat)) :
    Option Nat × List (Option Nat) :=
  find_ge_level s k (s.max_height - 1) 0 prev

/-- The descent of `find_less_than`: the move-right condition
(`!(next.is_null() || next.key >= key)`) is the same as
`key_is_after_node`, and the final `x` is returned. -/
def descend_lt (s : SkipList K) (k : K) : Nat → Nat → Nat
  | 0, x => walkLevel s k 0 s.nodes.length x
  | level+1, x => descend_lt s k level (walkLevel s k (level+1) s.nodes.length x)

/-- `SkipList::find_less_than`: returns a node address (the head, address 0,
when no node has key `< k`). -/
def find_less_than (s : SkipList K) (k : K) : Nat :=
  descend_lt s k (s.max_height - 1) 0

/-- One level of `find_last`: move right while the successor exists. -/
def walkEnd (s : SkipList K) (level : Nat) : Nat → Nat → Nat
  | 0, x => x
  | fuel+1, x =>
    match nextAt s x level with
    | none => x
    | some y => walkEnd s level fuel y

def descend_last (s : SkipList K) : Nat → Nat → Nat
  | 0, x => walkEnd s 0 s.nodes.length x
  | level+1, x => descend_last s level (walkEnd s (level+1) s.nodes.length x)

/-- `SkipList::find_last`. -/
def find_last (s : SkipList K) : Nat := descend_last s (s.max_height - 1) 0

/-- `SkipList::contains`. -/
def contains (s : SkipList K) (k : K) : Bool :=
  match (find_greater_or_equal s k (List.replicate MAX_HEIGHT none)).1 with
  | none => false
  | some a => decide (keyAt s a = k)

/-- The loop of `random_height`: `draws i` models the i-th
`gen_range(0..K_BRANCHING)` draw of the writer's RNG. -/
def random_height_loop (draws : Nat → Nat) : Nat → Nat → Nat → Nat
  | _, h, 0 => h
  | i, h, fuel+1 =>
    if h < MAX_HEIGHT ∧ draws i % K_BRANCHING = 0 then
      random_height_loop draws (i+1) (h+1) fuel
    else h

/-- `SkipList::random_height`: starts at 1, increments while the draw is 0,
capped at `MAX_HEIGHT`. -/
def random_height (draws : Nat → Nat) : Nat :=
  random_height_loop draws 0 1 MAX_HEIGHT

/-- The `prev` extension step of `insert`: when the drawn height exceeds the
current max height, levels `[lo, hi)` of `prev` are set to the head. -/
def extend_prev (prev : List (Option Nat)) (lo hi : Nat) : List (Option Nat) :=
  (List.range' lo (hi - lo)).foldl (fun p L => p.set L (some 0)) prev

/-- The `prev` array used by `insert` to wire the new node: the output of
`find_greater_or_equal`, extended with the head on new levels. -/
def insert_prev (s : SkipList K) (k : K) (h : Nat) : List (Option Nat) :=
  let prev := (find_greater_or_equal s k (List.replicate MAX_HEIGHT none)).2
  if s.max_height < h then extend_prev prev s.max_height h else prev

/-- The address stored in `prev[i]` (0, the head, as the junk default —
under the reachability invariant `prev[i]` is always `some _` for `i`
below the insertion height). -/
def prev_addr (s : SkipList K) (k : K) (h : Nat) (i : Nat) : Nat :=
  ((insert_prev s k h).getD i none).getD 0

/-- The freshly allocated node: key `k`, height `h`, and
`next[i] = prev[i].next(i)` (the `no_barrier_set_next` loop reads the
pre-insertion pointers: each level-`i` read happens before the unique
level-`i` write). -/
def new_node (s : SkipList K) (k : K) (h : Nat) : Node K :=
  ⟨k, (List.range h).map (fun i => nextAt s (prev_addr s k h i) i)⟩

/-- `Node::set_next` on the node store: replace the level-`level` pointer of
node `a` (no-op on an out-of-range address, which is unreachable from the
Rust code: it would be a null/dangling dereference). -/
def set_next (nodes : List (Node K)) (a level : Nat) (v : Option Nat) : List (Node K) :=
  match nodes[a]? with
  | none => nodes
  | some nd => nodes.set a ⟨nd.key, nd.next.set level v⟩

/-- The wiring loop of `insert`: for each `i < h`,
`prev[i].set_next(i, new_node)`. -/
def link_levels (nodes : List (Node K)) (newAddr : Nat) (pA : Nat → Nat) :
    Nat → List (Node K)
  | 0 => nodes
  | i+1 => set_next (link_levels nodes newAddr pA i) (pA i) i (some newAddr)

/-- The state produced by a successful `insert` with drawn height `h`:
max height raised if `h` exceeds it, the new node appended at the fresh
address `s.nodes.length`, and levels `0..h-1` wired through `prev`. -/
def insert_node (s : SkipList K) (k : K) (h : Nat) : SkipList K :=
  ⟨link_levels (s.nodes ++ [new_node s k h]) s.nodes.length (prev_addr s k h) h,
   if s.max_height < h then h else s.max_height⟩

/-- `SkipList::insert` with the drawn height made explicit.  The
`assert!(x.is_null() || x.key != key)` is modelled by returning `none`
(panic) when the search finds the key already present. -/
def insert (s : SkipList K) (k : K) (h : Nat) : Option (SkipList K) :=
  match (find_greater_or_equal s k (List.replicate MAX_HEIGHT none)).1 with
  | some a => if keyAt s a = k then none else some (insert_node s k h)
  | none => some (insert_node s k h)

/-! ### The iterator (cursor) model

A cursor is its node pointer: `none` is the invalid state. -/

/-- `SkipListIterator::seek_to_first`: `head.next(0)`. -/
def seek_to_first (s : SkipList K) : Option Nat := nextAt s 0 0

/-- `SkipListIterator::seek_to_last`: `find_last()`, invalid if it is the
head. -/
def seek_to_last (s : SkipList K) : Option Nat :=
  let a := find_last s
  if a = 0 then none else some a

/-- `SkipListIterator::next` from a valid cursor. -/
def iter_next (s : SkipList K) (a : Nat) : Option Nat := nextAt s a 0

/-- `SkipListIterator::prev` from a valid cursor: re-search with
`find_less_than(key())`, invalid if the result is the head. -/
def iter_prev (s : SkipList K) (a : Nat) : Option Nat :=
  let b := find_less_than s (keyAt s a)
  if b = 0 then none else some b

/-- The key sequence visited by `seek_to_first` followed by repeated
`next` calls until the cursor becomes invalid (with fuel). -/
def forward_keys_from (s : SkipList K) : Option Nat → Nat → List K
  | none, _ => []
  | some _, 0 => []
  | some a, fuel+1 => keyAt s a :: forward_keys_from s (iter_next s a) fuel

def forward_keys (s : SkipList K) : List K :=
  forward_keys_from s (seek_to_first s) s.nodes.length

/-- The cursor state after `n` further `next` calls. -/
def step_n (s : SkipList K) : Nat → Option Nat → Option Nat
  | 0, c => c
  | n+1, c => step_n s n (c.bind fun a => iter_next s a)

/-- The key sequence visited by `seek_to_last` followed by repeated `prev`
calls until the cursor becomes invalid (with fuel). -/
def backward_keys_from (s : SkipList K) : Option Nat → Nat → List K
  | none, _ => []
  | some _, 0 => []
  | some a, fuel+1 => keyAt s a :: backward_keys_from s (iter_prev s a) fuel

def backward_keys (s : SkipList K) : List K :=
  backward_keys_from s (seek_to_last s) s.nodes.length

/-- The cursor state after `n` further `prev` calls. -/
def prev_step_n (s : SkipList K) : Nat → Option Nat → Option Nat
  | 0, c => c
  | n+1, c => prev_step_n s n (c.bind fun a => iter_prev s a)

/-- The chain of node addresses reachable from node `a` by level-`level`
forward pointers (observable description of "the nodes at level `level`"). -/
def chain_from (s : SkipList K) (level : Nat) : Option Nat → Nat → List Nat
  | none, _ => []
  | some _, 0 => []
  | some a, fuel+1 => a :: chain_from s level (nextAt s a level) fuel

/-- The nodes linked at level `level`, in list order, head excluded. -/
def chain_at (s : SkipList K) (level : Nat) : List Nat :=
  chain_from s level (nextAt s 0 level) s.nodes.length

/-- The last element of a list, with a default (used to express "the last
node with property P, or the head"). -/
def lastD : List Nat → Nat → Nat
  | [], d => d
  | a :: t, _ => lastD t a

/-- The states reachable from a fresh list by single-threaded inserts,
indexed by the sequence of inserted keys.  Each step quantifies over the
RNG draw stream `d`; `insert … = some _` requires the duplicate-insert
assertion to pass. -/
inductive ReachableKeys : List K → SkipList K → Prop
  | base : ReachableKeys [] (mkSkipList K)
  | step {ks : List K} {s s2 : SkipList K} {k : K} (d : Nat → Nat) :
      ReachableKeys ks s → insert s k (random_height d) = some s2 →
      ReachableKeys (ks ++ [k]) s2

/-! ## The arena model (src/arena.rs) -/

def BLOCK_SIZE : Nat := 4096

/-- `std::mem::size_of::<*mut u8>()` on the 64-bit targets the crate is
built for. -/
def PTR_SIZE : Nat := 8

/-- The arena.  `fresh_blocks i` is the address the underlying allocator
returns for the i-th block request; the code asks for
`Layout::from_size_align(block_bytes, 1)`, so the contract puts no
alignment constraint on these addresses. -/
structure Arena where
  alloc_ptr : Nat
  alloc_bytes_remaining : Nat
  blocks : List Nat
  memory_usage : Nat
  fresh_blocks : Nat → Nat

/-- `Arena::new`. -/
def Arena.new (fresh : Nat → Nat) : Arena := ⟨0, 0, [], 0, fresh⟩

/-- `Arena::allocate_new_block`: get a block from the underlying allocator,
record it, and add `block_bytes + size_of::<*mut u8>()` to the counter. -/
def allocate_new_block (a : Arena) (block_bytes : Nat) : Nat × Arena :=
  let result := a.fresh_blocks a.blocks.length
  (result, { a with blocks := a.blocks ++ [result],
                    memory_usage := a.memory_usage + (block_bytes + PTR_SIZE) })

/-- `Arena::allocate_fallback`. -/
def allocate_fallback (a : Arena) (bytes : Nat) : Nat × Arena :=
  if BLOCK_SIZE / 4 < bytes then
    allocate_new_block a bytes
  else
    let r := allocate_new_block a BLOCK_SIZE
    (r.1, { r.2 with alloc_ptr := r.1 + bytes,
                     alloc_bytes_remaining := BLOCK_SIZE - bytes })

/-- `Arena::allocate`: `assert!(bytes > 0)` is modelled by `none` (panic)
on `bytes = 0`. -/
def Arena.allocate (a : Arena) (bytes : Nat) : Option (Nat × Arena) :=
  if bytes = 0 then none
  else if bytes ≤ a.alloc_bytes_remaining then
    some (a.alloc_ptr,
      { a with
        alloc_ptr := a.alloc_ptr + bytes
        alloc_bytes_remaining := a.alloc_bytes_remaining - bytes })
  else some (allocate_fallback a bytes)

/-- The alignment quantum: `max(8, size_of::<*mut ()>())`. -/
def ALIGN : Nat := if 8 < PTR_SIZE then PTR_SIZE else 8

def is_pow_two (n : Nat) : Bool := (List.range (n+1)).any (fun k => 2 ^ k == n)

/-- The padding `slop` computed by `allocate_aligned`
(`ptr & (align - 1)` equals `ptr % align` since `align` is a power of
two). -/
def align_slop (a : Arena) : Nat :=
  let current_mod := a.alloc_ptr % ALIGN
  if current_mod = 0 then 0 else ALIGN - current_mod

/-- `Arena::allocate_aligned`.  Note: there is no `bytes > 0` assertion in
the source; the only assertion is `assert!(align.is_power_of_two())`,
modelled by the outer guard (and always true). -/
def Arena.allocate_aligned (a : Arena) (bytes : Nat) : Option (Nat × Arena) :=
  if is_pow_two ALIGN then
    let slop := align_slop a
    let needed := bytes + slop
    if needed ≤ a.alloc_bytes_remaining then
      some (a.alloc_ptr + slop,
        { a with
          alloc_ptr := a.alloc_ptr + needed
          alloc_bytes_remaining := a.alloc_bytes_remaining - needed })
    else some (allocate_fallback a bytes)
  else none

/-- `Arena::memory_usage` is just the counter. -/
def Arena.memoryUsage (a : Arena) : Nat := a.memory_usage

/-- A single allocation request, for stating properties of call
sequences. -/
inductive AReq
  | alloc (n : Nat)
  | alloc_aligned (n : Nat)

def req_bytes : AReq → Nat
  | .alloc n => n
  | .alloc_aligned n => n

def run_req (a : Arena) : AReq → Option (Nat × Arena)
  | .alloc n => a.allocate n
  | .alloc_aligned n => a.allocate_aligned n

def run_reqs (a : Arena) : List AReq → Option Arena
  | [] => some a
  | r :: rs => (run_req a r).bind fun p => run_reqs p.2 rs

def sum_req (l : List AReq) : Nat := (l.map req_bytes).sum

/-! ## Concrete states used for evaluation

Small concrete lists and arenas on which the theorems below are
instantiated; the heights come from explicit draw streams through
`random_height`. -/

/-- The fresh Int list after `insert 2` (drawn height 1). -/
def wlist1 : SkipList Int :=
  (insert (mkSkipList Int) 2 (random_height fun _ => 1)).getD (mkSkipList Int)

/-- `wlist1` after `insert 5` (drawn height 2: first draw 0, second nonzero). -/
def wlist2 : SkipList Int :=
  (insert wlist1 5 (random_height fun i => if i = 0 then 0 else 1)).getD (mkSkipList Int)

/-- The fresh Int list after inserting a key below the head's default key. -/
def wneg : SkipList Int :=
  (insert (mkSkipList Int) (-5) (random_height fun _ => 1)).getD (mkSkipList Int)

/-- A small allocation trace. -/
def wreqs : List AReq := [AReq.alloc 1, AReq.alloc_aligned 20]

/-- The arena after running `wreqs` from a fresh arena whose block oracle
returns address 0. -/
def warena : Arena :=
  (run_reqs (Arena.new fun _ => 0) wreqs).getD (Arena.new fun _ => 0)

/-! ## Proof-layer definitions

Vocabulary for the verification: node-store accessors, the linked-chain
predicate of one level, the split of the level-0 order at a search key, and
the invariant of reachable states. -/

/-- Key of node `a` in a raw node store. -/
def keyOfN (nodes : List (Node K)) (a : Nat) : K := (nodes.getD a default).key

/-- Height of node `a` in a raw node store. -/
def hgtOfN (nodes : List (Node K)) (a : Nat) : Nat := (nodes.getD a default).next.length

/-- Forward pointer of node `a` at `level` in a raw node store. -/
def cellAt (nodes : List (Node K)) (a level : Nat) : Option Nat :=
  (nodes.getD a default).next.getD level none

/-- `Links s level l`: the elements of `l` are consecutively linked by the
level-`level` forward pointers, and the last one points to null. -/
def Links (s : SkipList K) (level : Nat) : List Nat → Prop
  | [] => True
  | [a] => nextAt s a level = none
  | a :: b :: t => nextAt s a level = some b ∧ Links s level (b :: t)

/-- `Linked s level l`: consecutive links only (no condition on the last
element's pointer). -/
def Linked (s : SkipList K) (level : Nat) : List Nat → Prop
  | [] => True
  | [_] => True
  | a :: b :: t => nextAt s a level = some b ∧ Linked s level (b :: t)

/-- Boolean form of "key of `a` is `< k`". -/
def keyLT (s : SkipList K) (k : K) : Nat → Bool := fun a => decide (keyAt s a < k)

/-- Boolean form of "node `a` is linked at `level`". -/
def hgtGT (s : SkipList K) (level : Nat) : Nat → Bool := fun a => decide (level < heightAt s a)

/-- The nodes (in level-0 order `L`) with key `< k`. -/
def lowOf (s : SkipList K) (k : K) (L : List Nat) : List Nat := L.takeWhile (keyLT s k)

/-- The nodes (in level-0 order `L`) with key `≥ k`. -/
def highOf (s : SkipList K) (k : K) (L : List Nat) : List Nat := L.dropWhile (keyLT s k)

/-- The last node at `level` with key `< k`, or the head (0). -/
def prevAt (s : SkipList K) (k : K) (L : List Nat) (level : Nat) : Nat :=
  lastD ((lowOf s k L).filter (hgtGT s level)) 0

/-- The structural invariant of reachable lists, relative to the level-0
address order `L` (head excluded). -/
structure InvData (s : SkipList K) (L : List Nat) : Prop where
  head_height : heightAt s 0 = MAX_HEIGHT
  mh_pos : 1 ≤ s.max_height
  mh_le : s.max_height ≤ MAX_HEIGHT
  perm : L.Perm (List.range' 1 (s.nodes.length - 1))
  sorted : L.Pairwise (fun a b => keyAt s a < keyAt s b)
  h_pos : ∀ a ∈ L, 1 ≤ heightAt s a
  h_le : ∀ a ∈ L, heightAt s a ≤ s.max_height
  links : ∀ level, level < MAX_HEIGHT →
    Links s level (0 :: L.filter (hgtGT s level))

/-- A reachable state together with its key multiset: some level-0 order
realizes the invariant and carries exactly the inserted keys. -/
def GoodState (ks : List K) (s : SkipList K) : Prop :=
  ∃ L, InvData s L ∧ (L.map (keyAt s)).Perm ks

/-! ## Generic list helpers -/

theorem getD_set_self {α : Type} (l : List α) (i : Nat) (v d : α) (h : i < l.length) :
    (l.set i v).getD i d = v := by
  induction l generalizing i with
  | nil => simp at h
  | cons a t ih =>
    cases i with
    | zero => rfl
    | succ n => simpa using ih n (by simpa using h)

theorem getD_set_ne {α : Type} (l : List α) (i j : Nat) (v d : α) (h : i ≠ j) :
    (l.set i v).getD j d = l.getD j d := by
  induction l generalizing i j with
  | nil => rfl
  | cons a t ih =>
    cases i with
    | zero => cases j with
      | zero => exact absurd rfl h
      | succ m => rfl
    | succ n => cases j with
      | zero => rfl
      | succ m => simpa using ih n m (by omega)

theorem getD_replicate {α : Type} (n i : Nat) (x : α) :
    (List.replicate n x).getD i x = x := by
  induction n generalizing i with
  | zero => rfl
  | succ m ih =>
    cases i with
    | zero => rfl
    | succ j => simpa [List.replicate] using ih j

theorem lastD_append_cons (u : List Nat) (a : Nat) (v : List Nat) (d : Nat) :
    lastD (u ++ a :: v) d = lastD v a := by
  induction u generalizing d with
  | nil => rfl
  | cons c t ih => simpa [lastD] using ih c

theorem lastD_concat (u : List Nat) (x d : Nat) : lastD (u ++ [x]) d = x := by
  simpa using lastD_append_cons u x [] d

theorem lastD_mem (l : List Nat) (d : Nat) : lastD l d = d ∨ lastD l d ∈ l := by
  induction l generalizing d with
  | nil => exact Or.inl rfl
  | cons a t ih =>
    rcases ih a with h | h
    · exact Or.inr (by simp [lastD, h])
    · exact Or.inr (by simp [lastD, h])

theorem lastD_decomp (l : List Nat) (d : Nat) :
    ∃ w, d :: l = w ++ [lastD l d] := by
  induction l generalizing d with
  | nil => exact ⟨[], rfl⟩
  | cons a t ih =>
    obtain ⟨w, hw⟩ := ih a
    exact ⟨d :: w, by simp [lastD, ← hw]⟩

theorem takeWhile_middle {p : Nat → Bool} (u : List Nat) (a : Nat) (v : List Nat)
    (hu : ∀ x ∈ u, p x = true) (ha : p a = false) :
    (u ++ a :: v).takeWhile p = u := by
  induction u with
  | nil => simp [List.takeWhile_cons, ha]
  | cons c t ih =>
    have hc : p c = true := hu c (by simp)
    simp only [List.cons_append, List.takeWhile_cons, hc, if_true]
    simp [ih (fun x hx => hu x (by simp [hx]))]

theorem dropWhile_head_false {α : Type} {p : α → Bool} :
    ∀ (l : List α) (b : α), (l.dropWhile p).head? = some b → p b = false := by
  intro l
  induction l with
  | nil => intro b h; simp [List.dropWhile] at h
  | cons a t ih =>
    intro b h
    by_cases hp : p a = true
    · exact ih b (by simpa [List.dropWhile, hp] using h)
    · have : a = b := by
        simp [List.dropWhile, Bool.of_not_eq_true hp] at h
        exact h
      simp [← this, Bool.of_not_eq_true hp]

/-! ## Linked chains: the pointer structure of one level -/

theorem links_tail {s : SkipList K} {level : Nat} {a : Nat} {l : List Nat}
    (h : Links s level (a :: l)) : Links s level l := by
  cases l with
  | nil => trivial
  | cons b t => exact h.2

theorem links_of_append_right {s : SkipList K} {level : Nat} :
    ∀ (u : List Nat) {v : List Nat}, Links s level (u ++ v) → Links s level v := by
  intro u
  induction u with
  | nil => intro v h; exact h
  | cons a t ih => intro v h; exact ih (links_tail h)

theorem linked_of_links {s : SkipList K} {level : Nat} :
    ∀ (l : List Nat), Links s level l → Linked s level l := by
  intro l
  induction l with
  | nil => intro _; trivial
  | cons a t ih =>
    cases t with
    | nil => intro _; trivial
    | cons b r => intro h; exact ⟨h.1, ih h.2⟩

theorem linked_append_left {s : SkipList K} {level : Nat} :
    ∀ (u : List Nat) {v : List Nat}, Linked s level (u ++ v) → Linked s level u := by
  intro u
  induction u with
  | nil => intro v _; trivial
  | cons a t ih =>
    intro v h
    cases t with
    | nil => trivial
    | cons b r => exact ⟨h.1, ih h.2⟩

theorem linked_append {s : SkipList K} {level : Nat} {m : Nat} {v : List Nat} :
    ∀ (u : List Nat), Linked s level (u ++ [m]) → Links s level (m :: v) →
      Links s level (u ++ m :: v) := by
  intro u
  induction u with
  | nil => intro _ hm; exact hm
  | cons a t ih =>
    intro h hm
    cases t with
    | nil => exact ⟨h.1, hm⟩
    | cons b r => exact ⟨h.1, ih h.2 hm⟩

theorem links_lastD_next {s : SkipList K} {level : Nat} :
    ∀ (w : List Nat) (c : Nat) {v : List Nat},
      Links s level (c :: (w ++ v)) → nextAt s (lastD w c) level = v.head? := by
  intro w
  induction w with
  | nil =>
    intro c v h
    cases v with
    | nil => exact h
    | cons b r => exact h.1
  | cons a t ih =>
    intro c v h
    simpa [lastD] using ih a h.2

theorem links_congr {s s2 : SkipList K} {level level2 : Nat} :
    ∀ (l : List Nat), (∀ a ∈ l, nextAt s2 a level2 = nextAt s a level) →
      Links s level l → Links s2 level2 l := by
  intro l
  induction l with
  | nil => intro _ _; trivial
  | cons a t ih =>
    intro hc h
    cases t with
    | nil => simpa [Links, hc a (by simp)] using h
    | cons b r =>
      exact ⟨by rw [hc a (by simp)]; exact h.1,
             ih (fun x hx => hc x (by simp [hx])) h.2⟩

theorem linked_congr {s s2 : SkipList K} {level level2 : Nat} :
    ∀ (l : List Nat), (∀ a ∈ l, nextAt s2 a level2 = nextAt s a level) →
      Linked s level l → Linked s2 level2 l := by
  intro l
  induction l with
  | nil => intro _ _; trivial
  | cons a t ih =>
    intro hc h
    cases t with
    | nil => trivial
    | cons b r =>
      exact ⟨by rw [hc a (by simp)]; exact h.1,
             ih (fun x hx => hc x (by simp [hx])) h.2⟩

theorem links_pairwise_next {s : SkipList K} {level : Nat} {R : Nat → Nat → Prop} :
    ∀ (l : List Nat), Links s level l → l.Pairwise R →
      ∀ a ∈ l, ∀ b, nextAt s a level = some b → R a b := by
  intro l
  induction l with
  | nil => intro _ _ a ha; simp at ha
  | cons c t ih =>
    intro h hp a ha b hb
    cases t with
    | nil =>
      simp at ha
      subst ha
      rw [h] at hb
      simp at hb
    | cons d r =>
      rcases List.mem_cons.mp ha with h1 | hat
      · subst h1
        rw [h.1] at hb
        obtain rfl : d = b := by simpa using hb
        exact (List.pairwise_cons.mp hp).1 d (by simp)
      · exact ih h.2 (List.pairwise_cons.mp hp).2 a hat b hb

/-! ## Walk lemmas: fuel sufficiency and results of the level loops -/

theorem walkLevel_spec {s : SkipList K} {k : K} {level : Nat} :
    ∀ (pre : List Nat) (c : Nat) {post : List Nat} (fuel : Nat),
      Links s level (c :: (pre ++ post)) →
      (∀ a ∈ pre, keyAt s a < k) →
      (∀ b, post.head? = some b → ¬ keyAt s b < k) →
      pre.length + 1 ≤ fuel →
      walkLevel s k level fuel c = lastD pre c := by
  intro pre
  induction pre with
  | nil =>
    intro c post fuel h _ hpost hfuel
    match fuel, hfuel with
    | f+1, _ =>
      show walkLevel s k level (f+1) c = c
      cases post with
      | nil =>
        have hnone : nextAt s c level = none := h
        simp [walkLevel, hnone, key_is_after_node]
      | cons b r =>
        have hb : nextAt s c level = some b := h.1
        have : ¬ keyAt s b < k := hpost b rfl
        simp [walkLevel, hb, key_is_after_node, this]
  | cons p t ih =>
    intro c post fuel h hpre hpost hfuel
    match fuel, hfuel with
    | f+1, hfuel =>
      have hp : nextAt s c level = some p := h.1
      have hkp : keyAt s p < k := hpre p (by simp)
      show walkLevel s k level (f+1) c = lastD (p :: t) c
      rw [show lastD (p :: t) c = lastD t p from rfl]
      have hstep : walkLevel s k level (f+1) c = walkLevel s k level f p := by
        simp [walkLevel, hp, key_is_after_node, hkp]
      rw [hstep]
      exact ih p f h.2 (fun a ha => hpre a (by simp [ha])) hpost (by simpa using hfuel)

theorem walkEnd_spec {s : SkipList K} {level : Nat} :
    ∀ (rest : List Nat) (c : Nat) (fuel : Nat),
      Links s level (c :: rest) →
      rest.length + 1 ≤ fuel →
      walkEnd s level fuel c = lastD rest c := by
  intro rest
  induction rest with
  | nil =>
    intro c fuel h hfuel
    match fuel, hfuel with
    | f+1, _ =>
      have hnone : nextAt s c level = none := h
      simp [walkEnd, hnone, lastD]
  | cons b t ih =>
    intro c fuel h hfuel
    match fuel, hfuel with
    | f+1, hfuel =>
      have hb : nextAt s c level = some b := h.1
      show walkEnd s level (f+1) c = lastD t b
      simp only [walkEnd, hb]
      exact ih b f h.2 (by simpa using hfuel)

theorem chain_from_spec {s : SkipList K} {level : Nat} :
    ∀ (rest : List Nat) (c : Nat) (fuel : Nat),
      Links s level (c :: rest) →
      rest.length + 1 ≤ fuel →
      chain_from s level (nextAt s c level) fuel = rest := by
  intro rest
  induction rest with
  | nil =>
    intro c fuel h _
    have hnone : nextAt s c level = none := h
    simp [hnone, chain_from]
  | cons b t ih =>
    intro c fuel h hfuel
    match fuel, hfuel with
    | f+1, hfuel =>
      have hb : nextAt s c level = some b := h.1
      simp only [hb, chain_from]
      rw [ih b f h.2 (by simpa using hfuel)]

theorem forward_from_spec {s : SkipList K} :
    ∀ (rest : List Nat) (c : Nat) (fuel : Nat),
      Links s 0 (c :: rest) →
      rest.length + 1 ≤ fuel →
      forward_keys_from s (some c) fuel = (c :: rest).map (keyAt s) := by
  intro rest
  induction rest with
  | nil =>
    intro c fuel h hfuel
    match fuel, hfuel with
    | f+1, _ =>
      have hnone : nextAt s c 0 = none := h
      simp [forward_keys_from, iter_next, hnone]
  | cons b t ih =>
    intro c fuel h hfuel
    match fuel, hfuel with
    | f+1, hfuel =>
      have hb : nextAt s c 0 = some b := h.1
      simp only [forward_keys_from, iter_next, hb, List.map_cons]
      rw [ih b f h.2 (by simpa using hfuel)]
      simp

theorem step_n_end {s : SkipList K} :
    ∀ (rest : List Nat) (c : Nat),
      Links s 0 (c :: rest) →
      step_n s (rest.length + 1) (some c) = none := by
  intro rest
  induction rest with
  | nil =>
    intro c h
    have hnone : nextAt s c 0 = none := h
    simp [step_n, iter_next, hnone]
  | cons b t ih =>
    intro c h
    have hb : nextAt s c 0 = some b := h.1
    show step_n s (t.length + 1 + 1) (some c) = none
    have h1 : step_n s (t.length + 1 + 1) (some c)
        = step_n s (t.length + 1) (nextAt s c 0) := rfl
    rw [h1, hb]
    exact ih b h.2

/-! ## The reachable-state invariant: consequences -/

theorem inv_nodes_pos {s : SkipList K} {L : List Nat} (hInv : InvData s L) :
    1 ≤ s.nodes.length := by
  by_contra h
  have hnil : s.nodes = [] := by
    cases hs : s.nodes with
    | nil => rfl
    | cons a t => rw [hs] at h; simp at h
  have := hInv.head_height
  rw [heightAt, nodeAt, hnil] at this
  rw [show ((([] : List (Node K)).getD 0 default) : Node K).next = [] from rfl] at this
  simp [MAX_HEIGHT] at this

theorem inv_mem_L {s : SkipList K} {L : List Nat} (hInv : InvData s L)
    {a : Nat} (ha : a ∈ L) : 1 ≤ a ∧ a < s.nodes.length := by
  have := hInv.perm.mem_iff.mp ha
  rw [List.mem_range'_1] at this
  have hn := inv_nodes_pos hInv
  omega

theorem inv_zero_notin {s : SkipList K} {L : List Nat} (hInv : InvData s L) :
    0 ∉ L := fun h => by have := (inv_mem_L hInv h).1; omega

theorem inv_L_len {s : SkipList K} {L : List Nat} (hInv : InvData s L) :
    L.length = s.nodes.length - 1 := by
  have := hInv.perm.length_eq
  simpa using this

theorem inv_nodup {s : SkipList K} {L : List Nat} (hInv : InvData s L) :
    L.Nodup := by
  refine hInv.sorted.imp ?_
  intro a b hab
  intro hEq
  rw [hEq] at hab
  exact lt_irrefl _ hab

theorem low_append_high (s : SkipList K) (k : K) (L : List Nat) :
    lowOf s k L ++ highOf s k L = L :=
  List.takeWhile_append_dropWhile (keyLT s k) L

theorem low_keys {s : SkipList K} {k : K} {L : List Nat} {a : Nat}
    (ha : a ∈ lowOf s k L) : keyAt s a < k := by
  have := List.mem_takeWhile_imp ha
  simpa [keyLT] using this

theorem high_keys {s : SkipList K} {k : K} {L : List Nat} (hInv : InvData s L)
    {a : Nat} (ha : a ∈ highOf s k L) : ¬ keyAt s a < k := by
  have hsub : (highOf s k L).Sublist L := List.dropWhile_sublist (keyLT s k)
  have hpw : (highOf s k L).Pairwise (fun a b => keyAt s a < keyAt s b) :=
    List.Pairwise.sublist hsub hInv.sorted
  cases hh : highOf s k L with
  | nil => rw [hh] at ha; simp at ha
  | cons b r =>
    have hb : ¬ keyAt s b < k := by
      have := dropWhile_head_false (p := keyLT s k) L b (by rw [highOf] at hh; simp [hh])
      simpa [keyLT] using this
    rw [hh] at ha
    rcases List.mem_cons.mp ha with h1 | h1
    · rw [h1]; exact hb
    · rw [hh] at hpw
      have := (List.pairwise_cons.mp hpw).1 a h1
      intro hc
      exact hb (lt_trans this hc)

theorem filter_h0 {s : SkipList K} {L : List Nat} (hInv : InvData s L)
    {l : List Nat} (hsub : ∀ a ∈ l, a ∈ L) :
    l.filter (hgtGT s 0) = l := by
  rw [List.filter_eq_self]
  intro a ha
  have := hInv.h_pos a (hsub a ha)
  simp [hgtGT]
  omega

theorem chain_level {s : SkipList K} {k : K} {L : List Nat} (hInv : InvData s L)
    {level : Nat} (hlev : level < MAX_HEIGHT) :
    Links s level (0 :: ((lowOf s k L).filter (hgtGT s level) ++
      (highOf s k L).filter (hgtGT s level))) := by
  have := hInv.links level hlev
  rwa [← low_append_high s k L, List.filter_append] at this

theorem walk_to_prevAt {s : SkipList K} {k : K} {L : List Nat} (hInv : InvData s L)
    {level : Nat} (hlev : level < MAX_HEIGHT) {x : Nat}
    (hx : x = 0 ∨ x ∈ (lowOf s k L).filter (hgtGT s level)) :
    walkLevel s k level s.nodes.length x = prevAt s k L level := by
  have hmem : x ∈ 0 :: (lowOf s k L).filter (hgtGT s level) := by
    rcases hx with h | h
    · simp [h]
    · exact List.mem_cons_of_mem 0 h
  obtain ⟨u, v, huv⟩ := List.append_of_mem hmem
  have hchain := chain_level (k := k) hInv hlev
  rw [show (0 : Nat) :: ((lowOf s k L).filter (hgtGT s level) ++
        (highOf s k L).filter (hgtGT s level))
      = (u ++ x :: v) ++ (highOf s k L).filter (hgtGT s level) by rw [← huv]; simp]
    at hchain
  rw [List.append_assoc, List.cons_append] at hchain
  have hlinks : Links s level (x :: (v ++ (highOf s k L).filter (hgtGT s level))) :=
    links_of_append_right u hchain
  have hvsub : ∀ a ∈ v, a ∈ (lowOf s k L).filter (hgtGT s level) := by
    intro a ha
    cases u with
    | nil =>
      have h2 : (lowOf s k L).filter (hgtGT s level) = v := by
        injection huv with hh1 hh2
      rw [h2]; exact ha
    | cons u0 u1 =>
      have h2 : (lowOf s k L).filter (hgtGT s level) = u1 ++ x :: v := by
        injection huv with hh1 hh2
      rw [h2]
      simp [ha]
  have hlenv : v.length + 1 ≤ s.nodes.length := by
    have h1 : (0 :: (lowOf s k L).filter (hgtGT s level)).length
        = u.length + (v.length + 1) := by rw [huv]; simp
    have h2 : ((lowOf s k L).filter (hgtGT s level)).length ≤ (lowOf s k L).length :=
      List.length_filter_le _ _
    have h3 : (lowOf s k L).length ≤ L.length :=
      (List.takeWhile_sublist (keyLT s k)).length_le
    have h4 := inv_L_len hInv
    have h5 := inv_nodes_pos hInv
    simp at h1
    omega
  have hw := @walkLevel_spec K _ _ s k level v x
    ((highOf s k L).filter (hgtGT s level)) s.nodes.length hlinks
    (fun a ha => low_keys (List.mem_filter.mp (hvsub a ha)).1)
    (fun b hb => by
      have hbmem : b ∈ (highOf s k L).filter (hgtGT s level) := by
        cases hfh : (highOf s k L).filter (hgtGT s level) with
        | nil => rw [hfh] at hb; simp at hb
        | cons c r =>
          rw [hfh] at hb
          simp at hb
          simp [hfh, hb]
      exact high_keys hInv (List.mem_filter.mp hbmem).1)
    hlenv
  rw [hw]
  have h6 : lastD (u ++ x :: v) 0 = lastD v x := lastD_append_cons u x v 0
  have h7 : lastD (0 :: (lowOf s k L).filter (hgtGT s level)) 0
      = lastD ((lowOf s k L).filter (hgtGT s level)) 0 := rfl
  rw [prevAt, ← h7, huv, h6]

theorem prevAt_step {s : SkipList K} {k : K} {L : List Nat}
    {level level2 : Nat} (hle : level ≤ level2) :
    prevAt s k L level2 = 0 ∨
      prevAt s k L level2 ∈ (lowOf s k L).filter (hgtGT s level) := by
  rcases lastD_mem ((lowOf s k L).filter (hgtGT s level2)) 0 with h | h
  · exact Or.inl h
  · right
    have h1 := List.mem_filter.mp h
    refine List.mem_filter.mpr ⟨h1.1, ?_⟩
    have h2 := h1.2
    simp [prevAt, hgtGT] at h2 ⊢
    omega

theorem find_ge_level_spec {s : SkipList K} {k : K} {L : List Nat} (hInv : InvData s L) :
    ∀ level, level < s.max_height →
    ∀ x prev, (x = 0 ∨ x ∈ (lowOf s k L).filter (hgtGT s level)) →
    MAX_HEIGHT ≤ prev.length →
    (find_ge_level s k level x prev).1 = (highOf s k L).head? ∧
    ∀ j, (find_ge_level s k level x prev).2.getD j none
        = if j ≤ level then some (prevAt s k L j) else prev.getD j none := by
  intro level
  induction level with
  | zero =>
    intro _ x prev hx hlen
    have hlev0 : 0 < MAX_HEIGHT := by simp [MAX_HEIGHT]
    have hw := walk_to_prevAt (k := k) hInv hlev0 hx
    constructor
    · show nextAt s (walkLevel s k 0 s.nodes.length x) 0 = (highOf s k L).head?
      rw [hw]
      have hfl : (lowOf s k L).filter (hgtGT s 0) = lowOf s k L :=
        filter_h0 hInv (fun a ha => by
          have := low_append_high s k L
          rw [← this]
          exact List.mem_append_left _ ha)
      have hfh : (highOf s k L).filter (hgtGT s 0) = highOf s k L :=
        filter_h0 hInv (fun a ha => by
          have := low_append_high s k L
          rw [← this]
          exact List.mem_append_right _ ha)
      have hchain := chain_level (k := k) hInv hlev0
      rw [hfl, hfh] at hchain
      have := links_lastD_next (lowOf s k L) 0 (v := highOf s k L) hchain
      rw [prevAt, hfl]
      exact this
    · intro j
      show (prev.set 0 (some (walkLevel s k 0 s.nodes.length x))).getD j none = _
      rw [hw]
      cases j with
      | zero =>
        rw [getD_set_self _ _ _ _ (by simp [MAX_HEIGHT] at hlen; omega)]
        simp
      | succ m =>
        rw [getD_set_ne _ _ _ _ _ (by omega)]
        simp

  | succ level ih =>
    intro hlt x prev hx hlen
    have hlev : level + 1 < MAX_HEIGHT := by
      have := hInv.mh_le
      omega
    have hw := walk_to_prevAt (k := k) hInv hlev hx
    have hunf : find_ge_level s k (level+1) x prev
        = find_ge_level s k level (walkLevel s k (level+1) s.nodes.length x)
            (prev.set (level+1) (some (walkLevel s k (level+1) s.nodes.length x))) := rfl
    rw [hunf, hw]
    have hih := ih (by omega) (prevAt s k L (level+1))
      (prev.set (level+1) (some (prevAt s k L (level+1))))
      (prevAt_step (by omega)) (by rw [List.length_set]; exact hlen)
    refine ⟨hih.1, ?_⟩
    intro j
    rw [hih.2 j]
    by_cases hj : j ≤ level
    · simp [hj, (by omega : j ≤ level + 1)]
    · by_cases hj2 : j = level + 1
      · subst hj2
        rw [getD_set_self _ _ _ _ (by simp [MAX_HEIGHT] at hlen hlev ⊢; omega)]
        simp [hj, le_refl]
      · have hne : level + 1 ≠ j := by omega
        have hcond : ¬ j ≤ level + 1 := by omega
        rw [getD_set_ne _ _ _ _ _ hne, if_neg hcond, if_neg hj]

theorem find_greater_or_equal_spec {s : SkipList K} {k : K} {L : List Nat}
    (hInv : InvData s L) (prev0 : List (Option Nat)) (hlen : MAX_HEIGHT ≤ prev0.length) :
    (find_greater_or_equal s k prev0).1 = (highOf s k L).head? ∧
    (∀ j, j < s.max_height →
      (find_greater_or_equal s k prev0).2.getD j none = some (prevAt s k L j)) ∧
    (∀ j, s.max_height ≤ j →
      (find_greater_or_equal s k prev0).2.getD j none = prev0.getD j none) := by
  have hmh := hInv.mh_pos
  have h := find_ge_level_spec (k := k) hInv (s.max_height - 1) (by omega) 0 prev0
    (Or.inl rfl) hlen
  refine ⟨h.1, ?_, ?_⟩
  · intro j hj
    have := h.2 j
    rw [if_pos (by omega)] at this
    exact this
  · intro j hj
    have := h.2 j
    rw [if_neg (by omega)] at this
    exact this

theorem descend_lt_spec {s : SkipList K} {k : K} {L : List Nat} (hInv : InvData s L) :
    ∀ level, level < s.max_height →
    ∀ x, (x = 0 ∨ x ∈ (lowOf s k L).filter (hgtGT s level)) →
    descend_lt s k level x = lastD (lowOf s k L) 0 := by
  intro level
  induction level with
  | zero =>
    intro _ x hx
    have hlev0 : 0 < MAX_HEIGHT := by simp [MAX_HEIGHT]
    show walkLevel s k 0 s.nodes.length x = _
    rw [walk_to_prevAt (k := k) hInv hlev0 hx]
    rw [prevAt, filter_h0 hInv (fun a ha => by
      have := low_append_high s k L
      rw [← this]
      exact List.mem_append_left _ ha)]
  | succ level ih =>
    intro hlt x hx
    have hlev : level + 1 < MAX_HEIGHT := by
      have := hInv.mh_le
      omega
    show descend_lt s k level (walkLevel s k (level+1) s.nodes.length x) = _
    rw [walk_to_prevAt (k := k) hInv hlev hx]
    exact ih (by omega) _ (prevAt_step (by omega))

theorem find_less_than_spec {s : SkipList K} {k : K} {L : List Nat}
    (hInv : InvData s L) :
    find_less_than s k = lastD (lowOf s k L) 0 := by
  have hmh := hInv.mh_pos
  exact descend_lt_spec (k := k) hInv (s.max_height - 1) (by omega) 0 (Or.inl rfl)

theorem walk_to_endAt {s : SkipList K} {L : List Nat} (hInv : InvData s L)
    {level : Nat} (hlev : level < MAX_HEIGHT) {x : Nat}
    (hx : x = 0 ∨ x ∈ L.filter (hgtGT s level)) :
    walkEnd s level s.nodes.length x = lastD (L.filter (hgtGT s level)) 0 := by
  have hmem : x ∈ 0 :: L.filter (hgtGT s level) := by
    rcases hx with h | h
    · simp [h]
    · exact List.mem_cons_of_mem 0 h
  obtain ⟨u, v, huv⟩ := List.append_of_mem hmem
  have hchain := hInv.links level hlev
  rw [huv] at hchain
  have hlinks : Links s level (x :: v) := links_of_append_right u hchain
  have hlenv : v.length + 1 ≤ s.nodes.length := by
    have h1 : (0 :: L.filter (hgtGT s level)).length = u.length + (v.length + 1) := by
      rw [huv]; simp
    have h2 : (L.filter (hgtGT s level)).length ≤ L.length := List.length_filter_le _ _
    have h4 := inv_L_len hInv
    have h5 := inv_nodes_pos hInv
    simp at h1
    omega
  rw [walkEnd_spec v x s.nodes.length hlinks hlenv]
  have h6 : lastD (u ++ x :: v) 0 = lastD v x := lastD_append_cons u x v 0
  have h7 : lastD (0 :: L.filter (hgtGT s level)) 0
      = lastD (L.filter (hgtGT s level)) 0 := rfl
  rw [← h7, huv, h6]

theorem endAt_step {s : SkipList K} {L : List Nat}
    {level level2 : Nat} (hle : level ≤ level2) :
    lastD (L.filter (hgtGT s level2)) 0 = 0 ∨
      lastD (L.filter (hgtGT s level2)) 0 ∈ L.filter (hgtGT s level) := by
  rcases lastD_mem (L.filter (hgtGT s level2)) 0 with h | h
  · exact Or.inl h
  · right
    have h1 := List.mem_filter.mp h
    refine List.mem_filter.mpr ⟨h1.1, ?_⟩
    have h2 := h1.2
    simp [hgtGT] at h2 ⊢
    omega

theorem find_last_spec {s : SkipList K} {L : List Nat} (hInv : InvData s L) :
    find_last s = lastD L 0 := by
  have hmh := hInv.mh_pos
  have main : ∀ level, level < s.max_height →
      ∀ x, (x = 0 ∨ x ∈ L.filter (hgtGT s level)) →
      descend_last s level x = lastD L 0 := by
    intro level
    induction level with
    | zero =>
      intro _ x hx
      have hlev0 : 0 < MAX_HEIGHT := by simp [MAX_HEIGHT]
      show walkEnd s 0 s.nodes.length x = _
      rw [walk_to_endAt hInv hlev0 hx]
      rw [filter_h0 hInv (fun a ha => ha)]
    | succ level ih =>
      intro hlt x hx
      have hlev : level + 1 < MAX_HEIGHT := by
        have := hInv.mh_le
        omega
      show descend_last s level (walkEnd s (level+1) s.nodes.length x) = _
      rw [walk_to_endAt hInv hlev hx]
      exact ih (by omega) _ (endAt_step (by omega))
  exact main (s.max_height - 1) (by omega) 0 (Or.inl rfl)

theorem chain_at_spec {s : SkipList K} {L : List Nat} (hInv : InvData s L)
    {level : Nat} (hlev : level < MAX_HEIGHT) :
    chain_at s level = L.filter (hgtGT s level) := by
  have hchain := hInv.links level hlev
  refine chain_from_spec _ 0 _ hchain ?_
  have h2 : (L.filter (hgtGT s level)).length ≤ L.length := List.length_filter_le _ _
  have h4 := inv_L_len hInv
  have h5 := inv_nodes_pos hInv
  omega

/-! ## Store-level frame lemmas for the insert wiring loop -/

theorem lt_length_of_get? {α : Type} {l : List α} {a : Nat} {nd : α}
    (h : l[a]? = some nd) : a < l.length := by
  induction l generalizing a with
  | nil => simp at h
  | cons x t ih =>
    cases a with
    | zero => simp
    | succ m => simpa using ih (by simpa using h)

theorem getD_eq_of_get? {α : Type} {l : List α} {a : Nat} {nd : α}
    (h : l[a]? = some nd) (d : α) : l.getD a d = nd := by
  induction l generalizing a with
  | nil => simp at h
  | cons x t ih =>
    cases a with
    | zero => simpa using h
    | succ m => simpa using ih (by simpa using h)

theorem get?_of_lt {α : Type} {l : List α} {a : Nat} (h : a < l.length) :
    ∃ nd, l[a]? = some nd := by
  induction l generalizing a with
  | nil => simp at h
  | cons x t ih =>
    cases a with
    | zero => exact ⟨x, by simp⟩
    | succ m => simpa using ih (by simpa using h)

theorem set_next_length (nodes : List (Node K)) (a level : Nat) (v : Option Nat) :
    (set_next nodes a level v).length = nodes.length := by
  cases hga : nodes[a]? with
  | none => simp [set_next, hga]
  | some nd => simp [set_next, hga]

theorem set_next_key (nodes : List (Node K)) (a level : Nat) (v : Option Nat) (b : Nat) :
    keyOfN (set_next nodes a level v) b = keyOfN nodes b := by
  cases hga : nodes[a]? with
  | none => simp [set_next, hga]
  | some nd =>
    by_cases hb : b = a
    · subst hb
      rw [keyOfN, keyOfN, set_next, hga]
      simp only []
      rw [getD_set_self _ _ _ _ (lt_length_of_get? hga), getD_eq_of_get? hga]
    · rw [keyOfN, keyOfN, set_next, hga]
      simp only []
      rw [getD_set_ne _ _ _ _ _ (fun hc => hb hc.symm)]

theorem set_next_hgt (nodes : List (Node K)) (a level : Nat) (v : Option Nat) (b : Nat) :
    hgtOfN (set_next nodes a level v) b = hgtOfN nodes b := by
  cases hga : nodes[a]? with
  | none => simp [set_next, hga]
  | some nd =>
    by_cases hb : b = a
    · subst hb
      rw [hgtOfN, hgtOfN, set_next, hga]
      simp only []
      rw [getD_set_self _ _ _ _ (lt_length_of_get? hga), getD_eq_of_get? hga]
      simp
    · rw [hgtOfN, hgtOfN, set_next, hga]
      simp only []
      rw [getD_set_ne _ _ _ _ _ (fun hc => hb hc.symm)]

theorem set_next_cell_ne_addr (nodes : List (Node K)) (a level : Nat) (v : Option Nat)
    {b : Nat} (level2 : Nat) (hb : b ≠ a) :
    cellAt (set_next nodes a level v) b level2 = cellAt nodes b level2 := by
  cases hga : nodes[a]? with
  | none => simp [set_next, hga]
  | some nd =>
    rw [cellAt, cellAt, set_next, hga]
    simp only []
    rw [getD_set_ne _ _ _ _ _ (fun hc => hb hc.symm)]

theorem set_next_cell_ne_level (nodes : List (Node K)) (a level : Nat) (v : Option Nat)
    (b : Nat) {level2 : Nat} (hl : level2 ≠ level) :
    cellAt (set_next nodes a level v) b level2 = cellAt nodes b level2 := by
  by_cases hb : b = a
  · subst hb
    cases hga : nodes[b]? with
    | none => simp [set_next, hga]
    | some nd =>
      rw [cellAt, cellAt, set_next, hga]
      simp only []
      rw [getD_set_self _ _ _ _ (lt_length_of_get? hga), getD_eq_of_get? hga]
      exact getD_set_ne _ _ _ _ _ (fun hc => hl hc.symm)
  · exact set_next_cell_ne_addr nodes a level v level2 hb

theorem set_next_cell_eq (nodes : List (Node K)) {a level : Nat} (v : Option Nat)
    (ha : a < nodes.length) (hl : level < hgtOfN nodes a) :
    cellAt (set_next nodes a level v) a level = v := by
  obtain ⟨nd, hga⟩ := get?_of_lt ha
  rw [cellAt, set_next, hga]
  simp only []
  rw [getD_set_self _ _ _ _ (lt_length_of_get? hga)]
  refine getD_set_self _ _ _ _ ?_
  rw [hgtOfN, getD_eq_of_get? hga] at hl
  exact hl

theorem link_levels_length (nodes : List (Node K)) (nA : Nat) (pA : Nat → Nat) :
    ∀ m, (link_levels nodes nA pA m).length = nodes.length := by
  intro m
  induction m with
  | zero => rfl
  | succ i ih => rw [link_levels, set_next_length, ih]

theorem link_levels_key (nodes : List (Node K)) (nA : Nat) (pA : Nat → Nat) (b : Nat) :
    ∀ m, keyOfN (link_levels nodes nA pA m) b = keyOfN nodes b := by
  intro m
  induction m with
  | zero => rfl
  | succ i ih => rw [link_levels, set_next_key, ih]

theorem link_levels_hgt (nodes : List (Node K)) (nA : Nat) (pA : Nat → Nat) (b : Nat) :
    ∀ m, hgtOfN (link_levels nodes nA pA m) b = hgtOfN nodes b := by
  intro m
  induction m with
  | zero => rfl
  | succ i ih => rw [link_levels, set_next_hgt, ih]

theorem link_levels_cell_untouched (nodes : List (Node K)) (nA : Nat) (pA : Nat → Nat)
    {b level2 : Nat} :
    ∀ m, (∀ i, i < m → ¬(b = pA i ∧ level2 = i)) →
      cellAt (link_levels nodes nA pA m) b level2 = cellAt nodes b level2 := by
  intro m
  induction m with
  | zero => intro _; rfl
  | succ i ih =>
    intro hunt
    rw [link_levels]
    by_cases hbi : b = pA i
    · have hl2 : level2 ≠ i := fun hc => hunt i (by omega) ⟨hbi, hc⟩
      rw [set_next_cell_ne_level _ _ _ _ _ hl2]
      exact ih (fun j hj => hunt j (by omega))
    · rw [set_next_cell_ne_addr _ _ _ _ _ hbi]
      exact ih (fun j hj => hunt j (by omega))

theorem link_levels_cell_written (nodes : List (Node K)) (nA : Nat) (pA : Nat → Nat)
    {i : Nat} (ha : pA i < nodes.length) (hl : i < hgtOfN nodes (pA i)) :
    ∀ m, i < m →
      cellAt (link_levels nodes nA pA m) (pA i) i = some nA := by
  intro m
  induction m with
  | zero => intro h; omega
  | succ j ih =>
    intro him
    rw [link_levels]
    by_cases hij : i = j
    · subst hij
      refine set_next_cell_eq _ _ ?_ ?_
      · rw [link_levels_length]; exact ha
      · rw [link_levels_hgt]; exact hl
    · rw [set_next_cell_ne_level _ _ _ _ _ hij]
      exact ih (by omega)

/-! ## Projections of `insert_node` -/

theorem getD_range_map (f : Nat → Option Nat) (h level : Nat) :
    ((List.range h).map f).getD level none = if level < h then f level else none := by
  rw [List.getD_eq_getElem?_getD, List.getElem?_map]
  by_cases hl : level < h
  · rw [List.getElem?_range hl]
    simp [hl]
  · have : (List.range h)[level]? = none := by
      rw [List.getElem?_eq_none]
      simpa using by omega
    rw [this]
    simp [hl]

theorem cellAt_append_lt (nodes : List (Node K)) (nn : Node K) {a : Nat}
    (ha : a < nodes.length) (level : Nat) :
    cellAt (nodes ++ [nn]) a level = cellAt nodes a level := by
  rw [cellAt, cellAt, List.getD_append _ _ _ _ ha]

theorem keyOfN_append_lt (nodes : List (Node K)) (nn : Node K) {a : Nat}
    (ha : a < nodes.length) :
    keyOfN (nodes ++ [nn]) a = keyOfN nodes a := by
  rw [keyOfN, keyOfN, List.getD_append _ _ _ _ ha]

theorem hgtOfN_append_lt (nodes : List (Node K)) (nn : Node K) {a : Nat}
    (ha : a < nodes.length) :
    hgtOfN (nodes ++ [nn]) a = hgtOfN nodes a := by
  rw [hgtOfN, hgtOfN, List.getD_append _ _ _ _ ha]

theorem cellAt_append_self (nodes : List (Node K)) (nn : Node K) (level : Nat) :
    cellAt (nodes ++ [nn]) nodes.length level = nn.next.getD level none := by
  rw [cellAt, List.getD_append_right _ _ _ _ (le_refl _)]
  simp

theorem keyOfN_append_self (nodes : List (Node K)) (nn : Node K) :
    keyOfN (nodes ++ [nn]) nodes.length = nn.key := by
  rw [keyOfN, List.getD_append_right _ _ _ _ (le_refl _)]
  simp

theorem hgtOfN_append_self (nodes : List (Node K)) (nn : Node K) :
    hgtOfN (nodes ++ [nn]) nodes.length = nn.next.length := by
  rw [hgtOfN, List.getD_append_right _ _ _ _ (le_refl _)]
  simp

theorem insert_node_len (s : SkipList K) (k : K) (h : Nat) :
    (insert_node s k h).nodes.length = s.nodes.length + 1 := by
  rw [insert_node]
  simp only []
  rw [link_levels_length]
  simp

theorem insert_node_mh (s : SkipList K) (k : K) (h : Nat) :
    (insert_node s k h).max_height = if s.max_height < h then h else s.max_height := rfl

theorem insert_node_key_lt (s : SkipList K) (k : K) (h : Nat) {a : Nat}
    (ha : a < s.nodes.length) :
    keyAt (insert_node s k h) a = keyAt s a := by
  show keyOfN (insert_node s k h).nodes a = keyOfN s.nodes a
  rw [insert_node]
  simp only []
  rw [link_levels_key, keyOfN_append_lt _ _ ha]

theorem insert_node_key_self (s : SkipList K) (k : K) (h : Nat) :
    keyAt (insert_node s k h) s.nodes.length = k := by
  show keyOfN (insert_node s k h).nodes s.nodes.length = k
  rw [insert_node]
  simp only []
  rw [link_levels_key, keyOfN_append_self]
  rfl

theorem insert_node_hgt_lt (s : SkipList K) (k : K) (h : Nat) {a : Nat}
    (ha : a < s.nodes.length) :
    heightAt (insert_node s k h) a = heightAt s a := by
  show hgtOfN (insert_node s k h).nodes a = hgtOfN s.nodes a
  rw [insert_node]
  simp only []
  rw [link_levels_hgt, hgtOfN_append_lt _ _ ha]

theorem insert_node_hgt_self (s : SkipList K) (k : K) (h : Nat) :
    heightAt (insert_node s k h) s.nodes.length = h := by
  show hgtOfN (insert_node s k h).nodes s.nodes.length = h
  rw [insert_node]
  simp only []
  rw [link_levels_hgt, hgtOfN_append_self]
  simp [new_node]

theorem insert_node_cell_untouched (s : SkipList K) (k : K) (h : Nat) {a level : Nat}
    (ha : a < s.nodes.length)
    (hunt : ∀ i, i < h → ¬(a = prev_addr s k h i ∧ level = i)) :
    nextAt (insert_node s k h) a level = nextAt s a level := by
  show cellAt (insert_node s k h).nodes a level = cellAt s.nodes a level
  rw [insert_node]
  simp only []
  rw [link_levels_cell_untouched _ _ _ _ hunt, cellAt_append_lt _ _ ha]

theorem insert_node_cell_written (s : SkipList K) (k : K) (h : Nat) {i : Nat}
    (hi : i < h) (ha : prev_addr s k h i < s.nodes.length)
    (hl : i < heightAt s (prev_addr s k h i)) :
    nextAt (insert_node s k h) (prev_addr s k h i) i = some s.nodes.length := by
  show cellAt (insert_node s k h).nodes (prev_addr s k h i) i = some s.nodes.length
  rw [insert_node]
  simp only []
  refine link_levels_cell_written _ _ _ ?_ ?_ h hi
  · simp; omega
  · rw [hgtOfN_append_lt _ _ ha]; exact hl

theorem insert_node_cell_new (s : SkipList K) (k : K) (h : Nat) (level : Nat)
    (hvalid : ∀ i, i < h → prev_addr s k h i < s.nodes.length) :
    nextAt (insert_node s k h) s.nodes.length level
      = if level < h then nextAt s (prev_addr s k h level) level else none := by
  show cellAt (insert_node s k h).nodes s.nodes.length level = _
  rw [insert_node]
  simp only []
  rw [link_levels_cell_untouched _ _ _ _
    (fun i hi hc => by have := hvalid i hi; omega)]
  rw [cellAt_append_self]
  rw [new_node]
  simp only []
  exact getD_range_map _ _ _

/-! ## The `prev` array used by `insert` -/

theorem extend_prev_peel (p : List (Option Nat)) (lo hi : Nat) (h : lo < hi) :
    extend_prev p lo hi = extend_prev (p.set lo (some 0)) (lo + 1) hi := by
  rw [extend_prev, extend_prev]
  have h1 : hi - lo = (hi - (lo + 1)) + 1 := by omega
  rw [h1, List.range'_succ]
  rfl

theorem extend_prev_getD_low : ∀ (m lo : Nat) (p : List (Option Nat)) (j : Nat), j < lo →
    (extend_prev p lo (lo + m)).getD j none = p.getD j none := by
  intro m
  induction m with
  | zero =>
    intro lo p j hj
    simp [extend_prev]
  | succ i ih =>
    intro lo p j hj
    rw [extend_prev_peel _ _ _ (by omega)]
    rw [show lo + (i+1) = (lo+1) + i by omega]
    rw [ih (lo+1) _ j (by omega)]
    exact getD_set_ne _ _ _ _ _ (by omega)

theorem extend_prev_getD_mid : ∀ (m lo : Nat) (p : List (Option Nat)) (j : Nat),
    lo ≤ j → j < lo + m → j < p.length →
    (extend_prev p lo (lo + m)).getD j none = some 0 := by
  intro m
  induction m with
  | zero => intro lo p j h1 h2 h3; omega
  | succ i ih =>
    intro lo p j h1 h2 h3
    rw [extend_prev_peel _ _ _ (by omega)]
    rw [show lo + (i+1) = (lo+1) + i by omega]
    by_cases hj : j = lo
    · subst hj
      rw [extend_prev_getD_low i (j+1) _ j (by omega)]
      exact getD_set_self _ _ _ _ h3
    · exact ih (lo+1) _ j (by omega) (by omega) (by rw [List.length_set]; exact h3)

theorem find_ge_level_len (s : SkipList K) (k : K) :
    ∀ level x prev, ((find_ge_level s k level x prev).2).length = prev.length := by
  intro level
  induction level with
  | zero => intro x prev; show (prev.set 0 _).length = _; rw [List.length_set]
  | succ i ih =>
    intro x prev
    show ((find_ge_level s k i _ (prev.set (i+1) _)).2).length = _
    rw [ih, List.length_set]

theorem prevAt_high_zero {s : SkipList K} {k : K} {L : List Nat} (hInv : InvData s L)
    {i : Nat} (hi : s.max_height ≤ i) :
    prevAt s k L i = 0 := by
  rw [prevAt]
  have hnil : (lowOf s k L).filter (hgtGT s i) = [] := by
    rw [List.filter_eq_nil_iff]
    intro a ha
    have haL : a ∈ L := by
      rw [← low_append_high s k L]
      exact List.mem_append_left _ ha
    have := hInv.h_le a haL
    simp [hgtGT]
    omega
  rw [hnil]
  rfl

theorem insert_prev_spec {s : SkipList K} {k : K} {L : List Nat} (hInv : InvData s L)
    {h : Nat} (hh2 : h ≤ MAX_HEIGHT) :
    ∀ i, i < h → (insert_prev s k h).getD i none = some (prevAt s k L i) := by
  intro i hi
  have hspec := find_greater_or_equal_spec (k := k) hInv (List.replicate MAX_HEIGHT none)
    (by simp)
  simp only [insert_prev]
  by_cases hmh : s.max_height < h
  · rw [if_pos hmh]
    by_cases hilt : i < s.max_height
    · rw [show h = s.max_height + (h - s.max_height) by omega]
      rw [extend_prev_getD_low (h - s.max_height) s.max_height _ i hilt]
      exact hspec.2.1 i hilt
    · rw [show h = s.max_height + (h - s.max_height) by omega]
      rw [extend_prev_getD_mid (h - s.max_height) s.max_height _ i (by omega) (by omega)
        (by
          simp only [find_greater_or_equal]
          rw [find_ge_level_len]
          simp only [List.length_replicate]
          simp [MAX_HEIGHT] at hh2 ⊢
          omega)]
      rw [prevAt_high_zero hInv (by omega)]
  · rw [if_neg hmh]
    exact hspec.2.1 i (by omega)

theorem prev_addr_spec {s : SkipList K} {k : K} {L : List Nat} (hInv : InvData s L)
    {h : Nat} (hh2 : h ≤ MAX_HEIGHT) {i : Nat} (hi : i < h) :
    prev_addr s k h i = prevAt s k L i := by
  rw [prev_addr, insert_prev_spec hInv hh2 i hi]
  rfl

theorem prevAt_lt {s : SkipList K} {k : K} {L : List Nat} (hInv : InvData s L)
    (i : Nat) : prevAt s k L i < s.nodes.length := by
  rcases lastD_mem ((lowOf s k L).filter (hgtGT s i)) 0 with hp | hp
  · rw [prevAt, hp]
    exact inv_nodes_pos hInv
  · have h1 := (List.mem_filter.mp hp).1
    have h2 : prevAt s k L i ∈ lowOf s k L ++ highOf s k L := List.mem_append_left _ h1
    rw [low_append_high] at h2
    exact (inv_mem_L hInv h2).2

theorem prevAt_hgt {s : SkipList K} {k : K} {L : List Nat} (hInv : InvData s L)
    {i : Nat} (hi : i < MAX_HEIGHT) : i < heightAt s (prevAt s k L i) := by
  rcases lastD_mem ((lowOf s k L).filter (hgtGT s i)) 0 with hp | hp
  · rw [prevAt, hp]
    rw [hInv.head_height]
    exact hi
  · have h2 := (List.mem_filter.mp hp).2
    simpa [hgtGT, prevAt] using h2

/-! ## Facts extracted from a successful `insert` -/

theorem insert_eq_some {s s2 : SkipList K} {k : K} {h : Nat}
    (hin : insert s k h = some s2) : s2 = insert_node s k h := by
  rw [insert] at hin
  cases hx : (find_greater_or_equal s k (List.replicate MAX_HEIGHT none)).1 with
  | none =>
    rw [hx] at hin
    simp at hin
    exact hin.symm
  | some a =>
    rw [hx] at hin
    by_cases hk : keyAt s a = k
    · simp [hk] at hin
    · simp [hk] at hin
      exact hin.symm

theorem insert_assert_ne {s s2 : SkipList K} {k : K} {h : Nat} {L : List Nat}
    (hInv : InvData s L) (hin : insert s k h = some s2) :
    ∀ b, (highOf s k L).head? = some b → keyAt s b ≠ k := by
  intro b hb hk
  have hspec := (find_greater_or_equal_spec (k := k) hInv
    (List.replicate MAX_HEIGHT none) (by simp)).1
  have hfge : (find_greater_or_equal s k (List.replicate MAX_HEIGHT none)).1 = some b := by
    rw [hspec, hb]
  rw [insert, hfge] at hin
  simp [hk] at hin

theorem insert_high_gt {s s2 : SkipList K} {k : K} {h : Nat} {L : List Nat}
    (hInv : InvData s L) (hin : insert s k h = some s2) :
    ∀ a ∈ highOf s k L, k < keyAt s a := by
  intro a ha
  cases hh : highOf s k L with
  | nil => rw [hh] at ha; simp at ha
  | cons b r =>
    have hbne : keyAt s b ≠ k := insert_assert_ne hInv hin b (by rw [hh]; rfl)
    have hble : ¬ keyAt s b < k := high_keys hInv (by rw [hh]; simp)
    have hbgt : k < keyAt s b := lt_of_le_of_ne (not_lt.mp hble) (fun hc => hbne hc.symm)
    rw [hh] at ha
    rcases List.mem_cons.mp ha with h1 | h1
    · rw [h1]; exact hbgt
    · have hpw : (highOf s k L).Pairwise (fun a b => keyAt s a < keyAt s b) :=
        List.Pairwise.sublist (List.dropWhile_sublist (keyLT s k)) hInv.sorted
      rw [hh] at hpw
      exact lt_trans hbgt ((List.pairwise_cons.mp hpw).1 a h1)

theorem insert_keys_ne {s s2 : SkipList K} {k : K} {h : Nat} {L : List Nat}
    (hInv : InvData s L) (hin : insert s k h = some s2) :
    ∀ a ∈ L, keyAt s a ≠ k := by
  intro a ha
  rw [← low_append_high s k L] at ha
  rcases List.mem_append.mp ha with h1 | h1
  · exact ne_of_lt (low_keys h1)
  · exact ne_of_gt (insert_high_gt hInv hin a h1)

/-! ## Preservation of the invariant by `insert` -/

theorem links_cons_cons {s : SkipList K} {level a b : Nat} {t : List Nat}
    (h1 : nextAt s a level = some b) (h2 : Links s level (b :: t)) :
    Links s level (a :: b :: t) := ⟨h1, h2⟩

theorem linked_congr_except {s s2 : SkipList K} {level : Nat} {m : Nat} :
    ∀ (u : List Nat), (∀ a ∈ u, nextAt s2 a level = nextAt s a level) →
      Linked s level (u ++ [m]) → Linked s2 level (u ++ [m]) := by
  intro u
  induction u with
  | nil => intro _ _; trivial
  | cons a t ih =>
    intro hc hlk
    cases t with
    | nil =>
      exact ⟨by rw [hc a (by simp)]; exact hlk.1, trivial⟩
    | cons b r =>
      exact ⟨by rw [hc a (by simp)]; exact hlk.1,
             ih (fun x hx => hc x (by simp [hx])) hlk.2⟩

theorem insert_preserves {s s2 : SkipList K} {k : K} {h : Nat} {L : List Nat}
    (hInv : InvData s L) (hin : insert s k h = some s2)
    (hh1 : 1 ≤ h) (hh2 : h ≤ MAX_HEIGHT) :
    InvData s2 (lowOf s k L ++ s.nodes.length :: highOf s k L) := by
  have hs2 : s2 = insert_node s k h := insert_eq_some hin
  subst hs2
  have hnpos : 1 ≤ s.nodes.length := inv_nodes_pos hInv
  have hlowL : ∀ a ∈ lowOf s k L, a ∈ L := by
    intro a ha
    have h2 : a ∈ lowOf s k L ++ highOf s k L := List.mem_append_left _ ha
    rwa [low_append_high] at h2
  have hhighL : ∀ a ∈ highOf s k L, a ∈ L := by
    intro a ha
    have h2 : a ∈ lowOf s k L ++ highOf s k L := List.mem_append_right _ ha
    rwa [low_append_high] at h2
  have hkeep : ∀ (a level2 : Nat), a < s.nodes.length →
      (level2 < h → a ≠ prev_addr s k h level2) →
      nextAt (insert_node s k h) a level2 = nextAt s a level2 := by
    intro a level2 ha hne
    refine insert_node_cell_untouched s k h ha ?_
    intro i hi hc
    exact hne (by rw [hc.2]; exact hi) (by rw [hc.2]; exact hc.1)
  have hvalid : ∀ i, i < h → prev_addr s k h i < s.nodes.length := by
    intro i hi
    rw [prev_addr_spec hInv hh2 hi]
    exact prevAt_lt hInv i
  refine ⟨?_, ?_, ?_, ?_, ?_, ?_, ?_, ?_⟩
  · -- head height unchanged
    rw [insert_node_hgt_lt s k h (by omega)]
    exact hInv.head_height
  · -- max height ≥ 1
    rw [insert_node_mh]
    have := hInv.mh_pos
    split <;> omega
  · -- max height ≤ MAX_HEIGHT
    rw [insert_node_mh]
    have := hInv.mh_le
    split <;> omega
  · -- permutation of all addresses
    have p1 : (lowOf s k L ++ s.nodes.length :: highOf s k L).Perm
        (s.nodes.length :: (lowOf s k L ++ highOf s k L)) := List.perm_middle
    rw [low_append_high] at p1
    have p2 : (s.nodes.length :: L).Perm
        (s.nodes.length :: List.range' 1 (s.nodes.length - 1)) :=
      hInv.perm.cons _
    have p3 : List.range' 1 (s.nodes.length - 1) ++ [s.nodes.length]
        = List.range' 1 ((insert_node s k h).nodes.length - 1) := by
      rw [insert_node_len]
      rw [show s.nodes.length + 1 - 1 = (s.nodes.length - 1) + 1 by omega]
      rw [List.range'_concat]
      congr 1
      simp
      omega
    have p4 : (List.range' 1 (s.nodes.length - 1) ++ [s.nodes.length]).Perm
        (s.nodes.length :: List.range' 1 (s.nodes.length - 1)) :=
      List.perm_append_singleton _ _
    exact ((p1.trans p2).trans p4.symm).trans (p3 ▸ List.Perm.refl _)
  · -- sortedness of the new level-0 order
    have hps := hInv.sorted
    rw [← low_append_high s k L] at hps
    obtain ⟨pwLo, pwHi, cross⟩ := List.pairwise_append.mp hps
    refine List.pairwise_append.mpr ⟨?_, ?_, ?_⟩
    · refine pwLo.imp_of_mem ?_
      intro a b ha hb hab
      rw [insert_node_key_lt s k h (inv_mem_L hInv (hlowL a ha)).2,
          insert_node_key_lt s k h (inv_mem_L hInv (hlowL b hb)).2]
      exact hab
    · refine List.pairwise_cons.mpr ⟨?_, ?_⟩
      · intro b hb
        rw [insert_node_key_self,
            insert_node_key_lt s k h (inv_mem_L hInv (hhighL b hb)).2]
        exact insert_high_gt hInv hin b hb
      · refine pwHi.imp_of_mem ?_
        intro a b ha hb hab
        rw [insert_node_key_lt s k h (inv_mem_L hInv (hhighL a ha)).2,
            insert_node_key_lt s k h (inv_mem_L hInv (hhighL b hb)).2]
        exact hab
    · intro a ha b hb
      rw [insert_node_key_lt s k h (inv_mem_L hInv (hlowL a ha)).2]
      rcases List.mem_cons.mp hb with h1 | h1
      · rw [h1, insert_node_key_self]
        exact low_keys ha
      · rw [insert_node_key_lt s k h (inv_mem_L hInv (hhighL b h1)).2]
        exact cross a ha b h1
  · -- heights are positive
    intro a ha
    rcases List.mem_append.mp ha with h1 | h1
    · rw [insert_node_hgt_lt s k h (inv_mem_L hInv (hlowL a h1)).2]
      exact hInv.h_pos a (hlowL a h1)
    · rcases List.mem_cons.mp h1 with h2 | h2
      · rw [h2, insert_node_hgt_self]
        exact hh1
      · rw [insert_node_hgt_lt s k h (inv_mem_L hInv (hhighL a h2)).2]
        exact hInv.h_pos a (hhighL a h2)
  · -- heights bounded by the max height
    intro a ha
    have hmh2 : (insert_node s k h).max_height
        = if s.max_height < h then h else s.max_height := insert_node_mh s k h
    rcases List.mem_append.mp ha with h1 | h1
    · rw [insert_node_hgt_lt s k h (inv_mem_L hInv (hlowL a h1)).2, hmh2]
      have := hInv.h_le a (hlowL a h1)
      split <;> omega
    · rcases List.mem_cons.mp h1 with h2 | h2
      · rw [h2, insert_node_hgt_self, hmh2]
        split <;> omega
      · rw [insert_node_hgt_lt s k h (inv_mem_L hInv (hhighL a h2)).2, hmh2]
        have := hInv.h_le a (hhighL a h2)
        split <;> omega
  · -- the level chains
    intro level hlev
    have hchainold : Links s level (0 :: ((lowOf s k L).filter (hgtGT s level)
        ++ (highOf s k L).filter (hgtGT s level))) := chain_level (k := k) hInv hlev
    have hmemb : ∀ a, (a = 0 ∨ a ∈ (lowOf s k L).filter (hgtGT s level)
        ∨ a ∈ (highOf s k L).filter (hgtGT s level)) → a < s.nodes.length := by
      intro a ha
      rcases ha with h1 | h1 | h1
      · omega
      · exact (inv_mem_L hInv (hlowL a (List.mem_filter.mp h1).1)).2
      · exact (inv_mem_L hInv (hhighL a (List.mem_filter.mp h1).1)).2
    -- the new filtered chain
    have hLo2 : (lowOf s k L).filter (hgtGT (insert_node s k h) level)
        = (lowOf s k L).filter (hgtGT s level) := by
      refine List.filter_congr ?_
      intro a ha
      simp only [hgtGT]
      rw [insert_node_hgt_lt s k h (inv_mem_L hInv (hlowL a ha)).2]
    have hHi2 : (highOf s k L).filter (hgtGT (insert_node s k h) level)
        = (highOf s k L).filter (hgtGT s level) := by
      refine List.filter_congr ?_
      intro a ha
      simp only [hgtGT]
      rw [insert_node_hgt_lt s k h (inv_mem_L hInv (hhighL a ha)).2]
    have hns : hgtGT (insert_node s k h) level s.nodes.length = decide (level < h) := by
      simp only [hgtGT]
      rw [insert_node_hgt_self]
    have hsplit : (lowOf s k L ++ s.nodes.length :: highOf s k L).filter
        (hgtGT (insert_node s k h) level)
        = (lowOf s k L).filter (hgtGT s level)
          ++ (if level < h
              then s.nodes.length :: (highOf s k L).filter (hgtGT s level)
              else (highOf s k L).filter (hgtGT s level)) := by
      rw [List.filter_append, hLo2, List.filter_cons, hns, hHi2]
      by_cases hlh : level < h
      · simp [hlh]
      · simp [hlh]
    rw [hsplit]
    by_cases hlh : level < h
    · rw [if_pos hlh]
      -- nodup and disjointness of the old chain
      have hndL : ((lowOf s k L).filter (hgtGT s level)
          ++ (highOf s k L).filter (hgtGT s level)).Nodup := by
        rw [← List.filter_append, low_append_high]
        exact List.Nodup.sublist (List.filter_sublist _) (inv_nodup hInv)
      have hzero : (0 : Nat) ∉ (lowOf s k L).filter (hgtGT s level)
          ++ (highOf s k L).filter (hgtGT s level) := by
        intro hmem
        rw [← List.filter_append, low_append_high] at hmem
        exact inv_zero_notin hInv (List.mem_filter.mp hmem).1
      have hnd0 : (((0 : Nat) :: (lowOf s k L).filter (hgtGT s level))
          ++ (highOf s k L).filter (hgtGT s level)).Nodup := by
        rw [List.cons_append]
        exact List.nodup_cons.mpr ⟨hzero, hndL⟩
      obtain ⟨hndLo0, hndHiF, hdisj⟩ := List.nodup_append.mp hnd0
      -- the written cell: prevAt points to the new node
      have hlast : nextAt (insert_node s k h) (prevAt s k L level) level
          = some s.nodes.length := by
        have hw := insert_node_cell_written s k h hlh
          (by rw [prev_addr_spec hInv hh2 hlh]; exact prevAt_lt hInv level)
          (by rw [prev_addr_spec hInv hh2 hlh]; exact prevAt_hgt hInv hlev)
        rwa [prev_addr_spec hInv hh2 hlh] at hw
      -- the new node's pointer continues to the old successor
      have hnew : nextAt (insert_node s k h) s.nodes.length level
          = ((highOf s k L).filter (hgtGT s level)).head? := by
        rw [insert_node_cell_new s k h level hvalid, if_pos hlh,
            prev_addr_spec hInv hh2 hlh]
        exact links_lastD_next _ 0 hchainold
      -- prevAt is in the low part of the chain
      have hlastmem : prevAt s k L level ∈
          (0 : Nat) :: (lowOf s k L).filter (hgtGT s level) := by
        rcases lastD_mem ((lowOf s k L).filter (hgtGT s level)) 0 with hp | hp
        · rw [prevAt, hp]; simp
        · exact List.mem_cons_of_mem _ hp
      -- the tail chain from the new node
      have hn2 : Links (insert_node s k h) level
          (s.nodes.length :: (highOf s k L).filter (hgtGT s level)) := by
        cases hHiF : (highOf s k L).filter (hgtGT s level) with
        | nil =>
          show nextAt (insert_node s k h) s.nodes.length level = none
          rw [hnew, hHiF]
          rfl
        | cons b r =>
          refine links_cons_cons ?_ ?_
          · rw [hnew, hHiF]; rfl
          · have holdHiF : Links s level ((highOf s k L).filter (hgtGT s level)) := by
              have hre : (0 : Nat) :: ((lowOf s k L).filter (hgtGT s level)
                  ++ (highOf s k L).filter (hgtGT s level))
                  = ((0 : Nat) :: (lowOf s k L).filter (hgtGT s level))
                    ++ (highOf s k L).filter (hgtGT s level) := by simp
              rw [hre] at hchainold
              exact links_of_append_right _ hchainold
            rw [hHiF] at holdHiF
            refine links_congr _ ?_ holdHiF
            intro a ha
            refine hkeep a level ?_ ?_
            · refine hmemb a (Or.inr (Or.inr ?_))
              rw [hHiF]
              exact ha
            · intro _ hcontra
              rw [prev_addr_spec hInv hh2 hlh] at hcontra
              refine hdisj (hcontra ▸ hlastmem) ?_
              rw [hHiF]
              exact ha
      -- the front of the chain, transferred cell by cell
      obtain ⟨w, hw⟩ := lastD_decomp ((lowOf s k L).filter (hgtGT s level)) 0
      have holdLinked : Linked s level (w ++ [lastD ((lowOf s k L).filter
          (hgtGT s level)) 0]) := by
        have h1 := linked_of_links _ hchainold
        have hre : (0 : Nat) :: ((lowOf s k L).filter (hgtGT s level)
            ++ (highOf s k L).filter (hgtGT s level))
            = ((0 : Nat) :: (lowOf s k L).filter (hgtGT s level))
              ++ (highOf s k L).filter (hgtGT s level) := by simp
        rw [hre] at h1
        have h2 := linked_append_left _ h1
        rwa [hw] at h2
    -- a quick fact: members of w are distinct from the last element
      have hndw : (w ++ [lastD ((lowOf s k L).filter (hgtGT s level)) 0]).Nodup := by
        rw [← hw]
        exact List.nodup_cons.mpr
          ⟨fun hmem => inv_zero_notin hInv (hlowL _ (List.mem_filter.mp hmem).1),
           List.Nodup.sublist (List.filter_sublist _)
             (List.Nodup.sublist (List.takeWhile_sublist _) (inv_nodup hInv))⟩
      have hLinked2 : Linked (insert_node s k h) level
          (w ++ [lastD ((lowOf s k L).filter (hgtGT s level)) 0]) := by
        refine linked_congr_except w ?_ holdLinked
        intro a ha
        refine hkeep a level ?_ ?_
        · have haw : a ∈ (0 : Nat) :: (lowOf s k L).filter (hgtGT s level) := by
            rw [hw]
            exact List.mem_append_left _ ha
          rcases List.mem_cons.mp haw with h1 | h1
          · exact hmemb a (Or.inl h1)
          · exact hmemb a (Or.inr (Or.inl h1))
        · intro _ hcontra
          rw [prev_addr_spec hInv hh2 hlh] at hcontra
          obtain ⟨_, _, hdw⟩ := List.nodup_append.mp hndw
          exact hdw ha (List.mem_singleton.mpr hcontra)
      have hglue := linked_append w hLinked2
        (links_cons_cons hlast hn2)
      have hre2 : w ++ lastD ((lowOf s k L).filter (hgtGT s level)) 0
          :: (s.nodes.length :: (highOf s k L).filter (hgtGT s level))
          = (0 : Nat) :: ((lowOf s k L).filter (hgtGT s level)
            ++ s.nodes.length :: (highOf s k L).filter (hgtGT s level)) := by
        rw [show w ++ lastD ((lowOf s k L).filter (hgtGT s level)) 0
            :: (s.nodes.length :: (highOf s k L).filter (hgtGT s level))
            = (w ++ [lastD ((lowOf s k L).filter (hgtGT s level)) 0])
              ++ (s.nodes.length :: (highOf s k L).filter (hgtGT s level)) by simp]
        rw [← hw]
        simp
      rwa [hre2] at hglue
    · rw [if_neg hlh]
      refine links_congr _ ?_ hchainold
      intro a ha
      refine hkeep a level ?_ (fun hc _ => absurd hc hlh)
      rcases List.mem_cons.mp ha with h1 | h1
      · exact hmemb a (Or.inl h1)
      · rcases List.mem_append.mp h1 with h2 | h2
        · exact hmemb a (Or.inr (Or.inl h2))
        · exact hmemb a (Or.inr (Or.inr h2))

/-! ## Reachable states satisfy the invariant -/

theorem forward_keys_from_none (s : SkipList K) (fuel : Nat) :
    forward_keys_from s none fuel = [] := by
  cases fuel <;> rfl

theorem backward_keys_from_none (s : SkipList K) (fuel : Nat) :
    backward_keys_from s none fuel = [] := by
  cases fuel <;> rfl

theorem goodstate_base : GoodState ([] : List K) (mkSkipList K) := by
  refine ⟨[], ⟨?_, ?_, ?_, ?_, ?_, ?_, ?_, ?_⟩, by simp⟩
  · show (List.replicate MAX_HEIGHT (none : Option Nat)).length = MAX_HEIGHT
    simp
  · exact le_refl 1
  · show (1 : Nat) ≤ MAX_HEIGHT
    simp [MAX_HEIGHT]
  · simp [mkSkipList]
  · simp
  · intro a ha; simp at ha
  · intro a ha; simp at ha
  · intro level _
    show Links (mkSkipList K) level ((0 : Nat) :: List.filter _ [])
    rw [List.filter_nil]
    show nextAt (mkSkipList K) 0 level = none
    show (List.replicate MAX_HEIGHT (none : Option Nat)).getD level none = none
    exact getD_replicate _ _ _

theorem goodstate_step {ks : List K} {s s2 : SkipList K} {k : K} {h : Nat}
    (hg : GoodState ks s) (hin : insert s k h = some s2)
    (hh1 : 1 ≤ h) (hh2 : h ≤ MAX_HEIGHT) :
    GoodState (ks ++ [k]) s2 := by
  obtain ⟨L, hInv, hperm⟩ := hg
  have hs2 : s2 = insert_node s k h := insert_eq_some hin
  subst hs2
  refine ⟨lowOf s k L ++ s.nodes.length :: highOf s k L,
    insert_preserves hInv hin hh1 hh2, ?_⟩
  have hlowL : ∀ a ∈ lowOf s k L, a ∈ L := by
    intro a ha
    have h2 : a ∈ lowOf s k L ++ highOf s k L := List.mem_append_left _ ha
    rwa [low_append_high] at h2
  have hhighL : ∀ a ∈ highOf s k L, a ∈ L := by
    intro a ha
    have h2 : a ∈ lowOf s k L ++ highOf s k L := List.mem_append_right _ ha
    rwa [low_append_high] at h2
  have hmap : (lowOf s k L ++ s.nodes.length :: highOf s k L).map
      (keyAt (insert_node s k h))
      = (lowOf s k L).map (keyAt s) ++ k :: (highOf s k L).map (keyAt s) := by
    rw [List.map_append, List.map_cons]
    rw [insert_node_key_self]
    congr 1
    · exact List.map_congr_left
        (fun a ha => insert_node_key_lt s k h (inv_mem_L hInv (hlowL a ha)).2)
    · congr 1
      exact List.map_congr_left
        (fun a ha => insert_node_key_lt s k h (inv_mem_L hInv (hhighL a ha)).2)
  rw [hmap]
  have p1 : ((lowOf s k L).map (keyAt s) ++ k :: (highOf s k L).map (keyAt s)).Perm
      (k :: ((lowOf s k L).map (keyAt s) ++ (highOf s k L).map (keyAt s))) :=
    List.perm_middle
  have p2 : (lowOf s k L).map (keyAt s) ++ (highOf s k L).map (keyAt s)
      = L.map (keyAt s) := by
    rw [← List.map_append, low_append_high]
  rw [p2] at p1
  refine p1.trans ?_
  refine ((hperm.cons k).trans ?_)
  exact (List.perm_append_singleton _ _).symm

theorem random_height_loop_bounds (draws : Nat → Nat) :
    ∀ (fuel i hgt : Nat), 1 ≤ hgt → hgt ≤ MAX_HEIGHT →
      1 ≤ random_height_loop draws i hgt fuel ∧
        random_height_loop draws i hgt fuel ≤ MAX_HEIGHT := by
  intro fuel
  induction fuel with
  | zero => intro i hgt h1 h2; exact ⟨h1, h2⟩
  | succ f ih =>
    intro i hgt h1 h2
    rw [random_height_loop]
    split
    · next hcond => exact ih (i+1) (hgt+1) (by omega) (by omega)
    · exact ⟨h1, h2⟩

theorem random_height_bounds (draws : Nat → Nat) :
    1 ≤ random_height draws ∧ random_height draws ≤ MAX_HEIGHT :=
  random_height_loop_bounds draws MAX_HEIGHT 0 1 (le_refl 1) (by simp [MAX_HEIGHT])

theorem reachable_good {ks : List K} {s : SkipList K} (hr : ReachableKeys ks s) :
    GoodState ks s := by
  induction hr with
  | base => exact goodstate_base
  | step d hr2 hin ih =>
    exact goodstate_step ih hin (random_height_bounds d).1 (random_height_bounds d).2

/-! ## Traversal characterizations -/

theorem forward_keys_eq {s : SkipList K} {L : List Nat} (hInv : InvData s L) :
    forward_keys s = L.map (keyAt s) := by
  have hLlen := inv_L_len hInv
  have hnpos := inv_nodes_pos hInv
  have hchain0 : Links s 0 ((0 : Nat) :: L) := by
    have := hInv.links 0 (by simp [MAX_HEIGHT])
    rwa [filter_h0 hInv (fun a ha => ha)] at this
  rw [forward_keys, seek_to_first]
  cases hL : L with
  | nil =>
    rw [hL] at hchain0
    rw [show nextAt s 0 0 = none from hchain0, forward_keys_from_none]
    rfl
  | cons b r =>
    rw [hL] at hchain0
    rw [hchain0.1]
    refine forward_from_spec r b _ hchain0.2 ?_
    rw [hL] at hLlen
    simp at hLlen
    omega

theorem forward_end_invalid {s : SkipList K} {L : List Nat} (hInv : InvData s L) :
    step_n s (forward_keys s).length (seek_to_first s) = none := by
  have hchain0 : Links s 0 ((0 : Nat) :: L) := by
    have := hInv.links 0 (by simp [MAX_HEIGHT])
    rwa [filter_h0 hInv (fun a ha => ha)] at this
  rw [forward_keys_eq hInv, seek_to_first]
  cases hL : L with
  | nil =>
    rw [hL] at hchain0
    rw [show nextAt s 0 0 = none from hchain0]
    rfl
  | cons b r =>
    rw [hL] at hchain0
    rw [hchain0.1]
    simpa using step_n_end r b hchain0.2

theorem keys_pairwise {s : SkipList K} {L : List Nat} (hInv : InvData s L) :
    (L.map (keyAt s)).Pairwise (· < ·) := by
  rw [List.pairwise_map]
  exact hInv.sorted

theorem backward_from_spec {s : SkipList K} {L : List Nat} (hInv : InvData s L) :
    ∀ (pre : List Nat) (a : Nat) (post : List Nat) (fuel : Nat),
      L = pre ++ a :: post → pre.length + 1 ≤ fuel →
      backward_keys_from s (some a) fuel
        = keyAt s a :: (pre.map (keyAt s)).reverse := by
  intro pre
  induction pre using List.reverseRecOn with
  | nil =>
    intro a post fuel hL hfuel
    match fuel, hfuel with
    | f+1, _ =>
      show keyAt s a :: backward_keys_from s (iter_prev s a) f = [keyAt s a]
      have hlow : lowOf s (keyAt s a) L = [] := by
        rw [lowOf, hL]
        exact takeWhile_middle [] a post (by intro x hx; simp at hx)
          (by simp [keyLT])
      have hflt : find_less_than s (keyAt s a) = 0 := by
        rw [find_less_than_spec hInv, hlow]
        rfl
      have hip : iter_prev s a = none := by
        rw [iter_prev]
        simp [hflt]
      rw [hip, backward_keys_from_none]
  | append_singleton w b ih =>
    intro a post fuel hL hfuel
    match fuel, hfuel with
    | f+1, hfuel =>
      show keyAt s a :: backward_keys_from s (iter_prev s a) f = _
      have hsorted := hInv.sorted
      rw [hL] at hsorted
      obtain ⟨pwu, pwrest, cross⟩ := List.pairwise_append.mp hsorted
      have hlow : lowOf s (keyAt s a) L = w ++ [b] := by
        rw [lowOf, hL]
        refine takeWhile_middle (w ++ [b]) a post ?_ (by simp [keyLT])
        intro x hx
        simp [keyLT]
        exact cross x hx a (by simp)
      have hflt : find_less_than s (keyAt s a) = b := by
        rw [find_less_than_spec hInv, hlow]
        exact lastD_concat _ _ _
      have hbL : b ∈ L := by rw [hL]; simp
      have hbne : b ≠ 0 := by
        have := (inv_mem_L hInv hbL).1
        omega
      have hip : iter_prev s a = some b := by
        simp [iter_prev, hflt, hbne]
      rw [hip]
      rw [ih b (a :: post) f (by rw [hL]; simp) (by simpa using hfuel)]
      simp

theorem backward_keys_eq {s : SkipList K} {L : List Nat} (hInv : InvData s L) :
    backward_keys s = (L.map (keyAt s)).reverse := by
  have hLlen := inv_L_len hInv
  have hnpos := inv_nodes_pos hInv
  rcases List.eq_nil_or_concat L with hL | ⟨w, x, hL⟩
  · have hfl : find_last s = 0 := by
      rw [find_last_spec hInv, hL]
      rfl
    have hseek : seek_to_last s = none := by
      simp [seek_to_last, hfl]
    rw [backward_keys, hseek, backward_keys_from_none, hL]
    rfl
  · rw [List.concat_eq_append] at hL
    have hfl : find_last s = x := by
      rw [find_last_spec hInv, hL]
      exact lastD_concat _ _ _
    have hxL : x ∈ L := by rw [hL]; simp
    have hxne : x ≠ 0 := by
      have := (inv_mem_L hInv hxL).1
      omega
    have hseek : seek_to_last s = some x := by
      simp [seek_to_last, hfl, hxne]
    rw [backward_keys, hseek]
    rw [backward_from_spec hInv w x [] s.nodes.length hL
      (by rw [hL] at hLlen; simp at hLlen; omega)]
    rw [hL]
    simp

theorem prev_step_none_aux {s : SkipList K} {L : List Nat} (hInv : InvData s L) :
    ∀ (pre : List Nat) (a : Nat) (post : List Nat),
      L = pre ++ a :: post →
      prev_step_n s (pre.length + 1) (some a) = none := by
  intro pre
  induction pre using List.reverseRecOn with
  | nil =>
    intro a post hL
    have hlow : lowOf s (keyAt s a) L = [] := by
      rw [lowOf, hL]
      exact takeWhile_middle [] a post (by intro x hx; simp at hx) (by simp [keyLT])
    have hflt : find_less_than s (keyAt s a) = 0 := by
      rw [find_less_than_spec hInv, hlow]
      rfl
    have hip : iter_prev s a = none := by
      simp [iter_prev, hflt]
    show prev_step_n s 0 (iter_prev s a) = none
    rw [hip]
    rfl
  | append_singleton w b ih =>
    intro a post hL
    have hsorted := hInv.sorted
    rw [hL] at hsorted
    obtain ⟨pwu, pwrest, cross⟩ := List.pairwise_append.mp hsorted
    have hlow : lowOf s (keyAt s a) L = w ++ [b] := by
      rw [lowOf, hL]
      refine takeWhile_middle (w ++ [b]) a post ?_ (by simp [keyLT])
      intro x hx
      simp [keyLT]
      exact cross x hx a (by simp)
    have hflt : find_less_than s (keyAt s a) = b := by
      rw [find_less_than_spec hInv, hlow]
      exact lastD_concat _ _ _
    have hbL : b ∈ L := by rw [hL]; simp
    have hbne : b ≠ 0 := by
      have := (inv_mem_L hInv hbL).1
      omega
    have hip : iter_prev s a = some b := by
      simp [iter_prev, hflt, hbne]
    have hlen : (w ++ [b]).length + 1 = (w.length + 1) + 1 := by simp
    rw [hlen]
    show prev_step_n s (w.length + 1) (iter_prev s a) = none
    rw [hip]
    exact ih b (a :: post) (by rw [hL]; simp)

theorem backward_end_invalid {s : SkipList K} {L : List Nat} (hInv : InvData s L) :
    prev_step_n s (backward_keys s).length (seek_to_last s) = none := by
  rw [backward_keys_eq hInv]
  rcases List.eq_nil_or_concat L with hL | ⟨w, x, hL⟩
  · have hfl : find_last s = 0 := by
      rw [find_last_spec hInv, hL]
      rfl
    have hseek : seek_to_last s = none := by
      simp [seek_to_last, hfl]
    rw [hseek, hL]
    rfl
  · rw [List.concat_eq_append] at hL
    have hfl : find_last s = x := by
      rw [find_last_spec hInv, hL]
      exact lastD_concat _ _ _
    have hxL : x ∈ L := by rw [hL]; simp
    have hxne : x ≠ 0 := by
      have := (inv_mem_L hInv hxL).1
      omega
    have hseek : seek_to_last s = some x := by
      simp [seek_to_last, hfl, hxne]
    rw [hseek]
    have hlen : ((L.map (keyAt s)).reverse).length = w.length + 1 := by
      rw [hL]
      simp
    rw [hlen]
    exact prev_step_none_aux hInv w x [] hL

/-! ## Characterizations used by the claim theorems -/

theorem mem_low_L {s : SkipList K} {k : K} {L : List Nat} {a : Nat}
    (ha : a ∈ lowOf s k L) : a ∈ L := by
  have h2 : a ∈ lowOf s k L ++ highOf s k L := List.mem_append_left _ ha
  rwa [low_append_high] at h2

theorem mem_high_L {s : SkipList K} {k : K} {L : List Nat} {a : Nat}
    (ha : a ∈ highOf s k L) : a ∈ L := by
  have h2 : a ∈ lowOf s k L ++ highOf s k L := List.mem_append_right _ ha
  rwa [low_append_high] at h2

theorem high_head_none {s : SkipList K} {k : K} {L : List Nat}
    (hh : (highOf s k L).head? = none) :
    ∀ a ∈ L, keyAt s a < k := by
  intro a ha
  have hHi : highOf s k L = [] := by
    cases hHi2 : highOf s k L with
    | nil => rfl
    | cons b r => rw [hHi2] at hh; simp at hh
  rw [← low_append_high s k L, hHi] at ha
  simp at ha
  exact low_keys ha

theorem high_head_some {s : SkipList K} {k : K} {L : List Nat} (hInv : InvData s L)
    {b : Nat} (hh : (highOf s k L).head? = some b) :
    b ∈ L ∧ k ≤ keyAt s b ∧ ∀ a ∈ L, k ≤ keyAt s a → keyAt s b ≤ keyAt s a := by
  obtain ⟨r, hHi⟩ : ∃ r, highOf s k L = b :: r := by
    cases hHi2 : highOf s k L with
    | nil => rw [hHi2] at hh; simp at hh
    | cons c r =>
      rw [hHi2] at hh
      simp at hh
      refine ⟨r, ?_⟩
      congr 1
  have hbHi : b ∈ highOf s k L := by rw [hHi]; simp
  have hpw : (highOf s k L).Pairwise (fun a b => keyAt s a < keyAt s b) :=
    List.Pairwise.sublist (List.dropWhile_sublist (keyLT s k)) hInv.sorted
  refine ⟨mem_high_L hbHi, not_lt.mp (high_keys hInv hbHi), ?_⟩
  intro a ha hka
  rw [← low_append_high s k L] at ha
  rcases List.mem_append.mp ha with h1 | h1
  · exact absurd (low_keys h1) (not_lt.mpr hka)
  · rw [hHi] at h1 hpw
    rcases List.mem_cons.mp h1 with h2 | h2
    · rw [h2]
    · exact le_of_lt ((List.pairwise_cons.mp hpw).1 a h2)

theorem contains_iff_mem_keys {s : SkipList K} {L : List Nat} (hInv : InvData s L)
    (k : K) : contains s k = true ↔ k ∈ L.map (keyAt s) := by
  have hspec := (find_greater_or_equal_spec (k := k) hInv
    (List.replicate MAX_HEIGHT none) (by simp)).1
  rw [contains, hspec]
  cases hh : (highOf s k L).head? with
  | none =>
    show (false = true) ↔ _
    constructor
    · intro hfalse; simp at hfalse
    · intro hk
      obtain ⟨a, haL, hka⟩ := List.mem_map.mp hk
      exact absurd (hka ▸ high_head_none hh a haL) (lt_irrefl k)
  | some b =>
    show decide (keyAt s b = k) = true ↔ _
    obtain ⟨hbL, hkb, hmin⟩ := high_head_some hInv hh
    constructor
    · intro hdec
      exact List.mem_map.mpr ⟨b, hbL, of_decide_eq_true hdec⟩
    · intro hk
      obtain ⟨a, haL, hka⟩ := List.mem_map.mp hk
      have h1 : keyAt s b ≤ keyAt s a := hmin a haL (le_of_eq hka.symm)
      rw [hka] at h1
      exact decide_eq_true (le_antisymm h1 hkb)

theorem sorted_next {s : SkipList K} {L : List Nat} (hInv : InvData s L) :
    ∀ a ∈ L, ∀ level, level < heightAt s a →
      ∀ b, nextAt s a level = some b → keyAt s a < keyAt s b := by
  intro a haL level hlh b hb
  have hlev12 : level < MAX_HEIGHT :=
    lt_of_lt_of_le (lt_of_lt_of_le hlh (hInv.h_le a haL)) hInv.mh_le
  have haC : a ∈ L.filter (hgtGT s level) := by
    refine List.mem_filter.mpr ⟨haL, ?_⟩
    simp [hgtGT]
    exact hlh
  have hlinks := links_tail (hInv.links level hlev12)
  have hpw : (L.filter (hgtGT s level)).Pairwise (fun a b => keyAt s a < keyAt s b) :=
    List.Pairwise.sublist (List.filter_sublist _) hInv.sorted
  exact links_pairwise_next _ hlinks hpw a haC b hb

theorem lowOf_eq_filter {s : SkipList K} {L : List Nat} (hInv : InvData s L) (k : K) :
    lowOf s k L = L.filter (keyLT s k) := by
  conv_rhs => rw [← low_append_high s k L]
  rw [List.filter_append]
  rw [List.filter_eq_self.mpr (fun a ha => List.mem_takeWhile_imp ha)]
  rw [List.filter_eq_nil_iff.mpr (fun a ha => by
    simp [keyLT]
    exact not_lt.mp (high_keys hInv ha))]
  simp

theorem prevAt_observable {s : SkipList K} {L : List Nat} (hInv : InvData s L)
    (k : K) {j : Nat} (hj : j < MAX_HEIGHT) :
    prevAt s k L j = lastD ((chain_at s j).filter (keyLT s k)) 0 := by
  rw [chain_at_spec hInv hj, prevAt, lowOf_eq_filter hInv k]
  rw [List.filter_filter, List.filter_filter]
  congr 1
  exact List.filter_congr (fun a _ => by rw [Bool.and_comm])

/-! ## Arena lemmas -/

theorem is_pow_two_align : is_pow_two ALIGN = true := by decide

theorem allocate_fallback_usage (a : Arena) (b : Nat) :
    ((allocate_fallback a b).2).memory_usage
      = a.memory_usage + ((if BLOCK_SIZE / 4 < b then b else BLOCK_SIZE) + PTR_SIZE) := by
  rw [allocate_fallback]
  split
  · rfl
  · rfl

theorem allocate_fallback_remaining (a : Arena) (b : Nat) :
    ((allocate_fallback a b).2).alloc_bytes_remaining
      = if BLOCK_SIZE / 4 < b then a.alloc_bytes_remaining else BLOCK_SIZE - b := by
  rw [allocate_fallback]
  split
  · next hgt => simp [hgt, allocate_new_block]
  · next hgt => simp [hgt]

theorem run_req_inv {S : Nat} {a a2 : Arena} {r : AReq} {p : Nat}
    (h : run_req a r = some (p, a2))
    (hS : S + a.alloc_bytes_remaining ≤ a.memory_usage) :
    (S + req_bytes r) + a2.alloc_bytes_remaining ≤ a2.memory_usage := by
  have hB : BLOCK_SIZE = 4096 := rfl
  cases r with
  | alloc n =>
    rw [run_req, Arena.allocate] at h
    by_cases h0 : n = 0
    · rw [if_pos h0] at h; simp at h
    · rw [if_neg h0] at h
      by_cases hrem : n ≤ a.alloc_bytes_remaining
      · rw [if_pos hrem] at h
        have h2 : _ = a2 := congrArg Prod.snd (Option.some_injective _ h)
        rw [← h2]
        show (S + n) + (a.alloc_bytes_remaining - n) ≤ a.memory_usage
        omega
      · rw [if_neg hrem] at h
        have h2 : _ = a2 := congrArg Prod.snd (Option.some_injective _ h)
        rw [← h2, allocate_fallback_usage, allocate_fallback_remaining]
        show (S + n) + _ ≤ _
        split
        · omega
        · next hble =>
          rw [hB] at hble ⊢
          omega
  | alloc_aligned n =>
    rw [run_req, Arena.allocate_aligned] at h
    rw [if_pos (by rw [is_pow_two_align])] at h
    by_cases hrem : n + align_slop a ≤ a.alloc_bytes_remaining
    · rw [if_pos hrem] at h
      have h2 : _ = a2 := congrArg Prod.snd (Option.some_injective _ h)
      rw [← h2]
      show (S + n) + (a.alloc_bytes_remaining - (n + align_slop a)) ≤ a.memory_usage
      omega
    · rw [if_neg hrem] at h
      have h2 : _ = a2 := congrArg Prod.snd (Option.some_injective _ h)
      rw [← h2, allocate_fallback_usage, allocate_fallback_remaining]
      show (S + n) + _ ≤ _
      split
      · omega
      · next hble =>
        rw [hB] at hble ⊢
        omega

theorem run_req_mono {a a2 : Arena} {r : AReq} {p : Nat}
    (h : run_req a r = some (p, a2)) :
    a.memory_usage ≤ a2.memory_usage := by
  cases r with
  | alloc n =>
    rw [run_req, Arena.allocate] at h
    by_cases h0 : n = 0
    · rw [if_pos h0] at h; simp at h
    · rw [if_neg h0] at h
      by_cases hrem : n ≤ a.alloc_bytes_remaining
      · rw [if_pos hrem] at h
        have h2 : _ = a2 := congrArg Prod.snd (Option.some_injective _ h)
        rw [← h2]
      · rw [if_neg hrem] at h
        have h2 : _ = a2 := congrArg Prod.snd (Option.some_injective _ h)
        rw [← h2, allocate_fallback_usage]
        omega
  | alloc_aligned n =>
    rw [run_req, Arena.allocate_aligned] at h
    rw [if_pos (by rw [is_pow_two_align])] at h
    by_cases hrem : n + align_slop a ≤ a.alloc_bytes_remaining
    · rw [if_pos hrem] at h
      have h2 : _ = a2 := congrArg Prod.snd (Option.some_injective _ h)
      rw [← h2]
    · rw [if_neg hrem] at h
      have h2 : _ = a2 := congrArg Prod.snd (Option.some_injective _ h)
      rw [← h2, allocate_fallback_usage]
      omega

theorem run_reqs_inv : ∀ (reqs : List AReq) (a : Arena) (S : Nat) (a2 : Arena),
    run_reqs a reqs = some a2 →
    S + a.alloc_bytes_remaining ≤ a.memory_usage →
    (S + sum_req reqs) + a2.alloc_bytes_remaining ≤ a2.memory_usage := by
  intro reqs
  induction reqs with
  | nil =>
    intro a S a2 h hS
    rw [run_reqs] at h
    obtain rfl : a = a2 := Option.some_injective _ h
    simpa [sum_req] using hS
  | cons r rs ih =>
    intro a S a2 h hS
    rw [run_reqs] at h
    cases hr : run_req a r with
    | none => rw [hr] at h; simp at h
    | some pa =>
      rw [hr] at h
      simp at h
      have hstep := run_req_inv (show run_req a r = some (pa.1, pa.2) by rw [hr]) hS
      have := ih pa.2 (S + req_bytes r) a2 h hstep
      have hsum : sum_req (r :: rs) = req_bytes r + sum_req rs := by
        simp [sum_req]
      omega

/-! ## The claims -/

/-- C1: for every finite sequence of distinct keys inserted (in any order,
single-threaded, with any drawn heights) into a freshly constructed
SkipList, and for every key `k`, `contains k` returns true iff `k` is one
of the inserted keys. -/
theorem claim_c1_contains_iff {ks : List K} {s : SkipList K}
    (hr : ReachableKeys ks s) (k : K) :
    contains s k = true ↔ k ∈ ks := by
  obtain ⟨L, hInv, hperm⟩ := reachable_good hr
  rw [contains_iff_mem_keys hInv k]
  exact hperm.mem_iff

theorem claim_c1_witness :
    contains wlist1 2 = true := by
  have h1 : insert (mkSkipList Int) 2 (random_height fun _ => 1) = some wlist1 := rfl
  have hr : ReachableKeys [2] wlist1 := ReachableKeys.step _ ReachableKeys.base h1
  exact (claim_c1_contains_iff hr 2).mpr (by simp)

/-- C2 (counterexample to the claim as stated): on the fresh list (current
max height 1), `find_greater_or_equal` with key 5 and a `prev` array of
`MAX_HEIGHT` nulls leaves `prev[1]` null; the claim demands the head
(node 0) there, since no node at level 1 has key `< 5`. -/
theorem claim_c2_counterexample :
    ((find_greater_or_equal (mkSkipList Int) 5 (List.replicate MAX_HEIGHT none)).2).getD 1 none
      ≠ some 0 := by decide

/-- C2 (amended): for every reachable list and key `k`,
`find_greater_or_equal` returns the node with the smallest key `≥ k` (null
if none); after the call, for every level `L < max_height`, `prev[L]` is
the last node at level `L` whose key is strictly less than `k` (the head,
node 0, if no such node exists); levels `≥ max_height` keep the value the
caller stored in them. -/
theorem claim_c2_find_ge {ks : List K} {s : SkipList K}
    (hr : ReachableKeys ks s) (k : K) (prev0 : List (Option Nat))
    (hlen : prev0.length = MAX_HEIGHT) :
    (match (find_greater_or_equal s k prev0).1 with
      | none => ∀ k2 ∈ ks, k2 < k
      | some b => k ≤ keyAt s b ∧ keyAt s b ∈ ks ∧
          ∀ k2 ∈ ks, k ≤ k2 → keyAt s b ≤ k2) ∧
    (∀ level, level < s.max_height →
      (find_greater_or_equal s k prev0).2.getD level none
        = some (lastD ((chain_at s level).filter (keyLT s k)) 0)) ∧
    (∀ level, s.max_height ≤ level →
      (find_greater_or_equal s k prev0).2.getD level none = prev0.getD level none) := by
  obtain ⟨L, hInv, hperm⟩ := reachable_good hr
  have hspec := find_greater_or_equal_spec (k := k) hInv prev0 (le_of_eq hlen.symm)
  refine ⟨?_, ?_, hspec.2.2⟩
  · rw [hspec.1]
    cases hh : (highOf s k L).head? with
    | none =>
      intro k2 hk2
      obtain ⟨a, haL, hka⟩ := List.mem_map.mp (hperm.mem_iff.mpr hk2)
      exact hka ▸ high_head_none hh a haL
    | some b =>
      obtain ⟨hbL, hkb, hmin⟩ := high_head_some hInv hh
      refine ⟨hkb, hperm.mem_iff.mp (List.mem_map.mpr ⟨b, hbL, rfl⟩), ?_⟩
      intro k2 hk2 hge
      obtain ⟨a, haL, hka⟩ := List.mem_map.mp (hperm.mem_iff.mpr hk2)
      exact hka ▸ hmin a haL (hka ▸ hge)
  · intro level hlev
    rw [hspec.2.1 level hlev]
    rw [prevAt_observable hInv k (lt_of_lt_of_le hlev hInv.mh_le)]

theorem claim_c2_witness :
    ((find_greater_or_equal (mkSkipList Int) 5 (List.replicate MAX_HEIGHT none)).2).getD 0 none
      = some (lastD ((chain_at (mkSkipList Int) 0).filter (keyLT (mkSkipList Int) 5)) 0) := by
  exact (claim_c2_find_ge ReachableKeys.base 5 (List.replicate MAX_HEIGHT none)
    (by simp)).2.1 0 (by decide)

/-- C3 (the code contradicts the claim): the underlying allocator is asked
for blocks with `Layout::from_size_align(block_bytes, 1)`, i.e. alignment
1, so it may legally return the odd address 1; a fresh arena whose first
block lands there serves `allocate_aligned(1)` through the fallback path
and returns pointer 1, for which `p mod A = 0` evaluates to false. -/
theorem claim_c3_code_bug :
    ((Arena.new (fun _ => 1)).allocate_aligned 1).map (fun p => decide (p.1 % ALIGN = 0))
      = some false := by rfl

/-- C4 (counterexample to the claim as stated): `allocate_aligned(0)` on a
fresh arena does not abort: it returns a byte range. -/
theorem claim_c4_counterexample :
    ((Arena.new (fun _ => 0)).allocate_aligned 0).isSome = true := by rfl

/-- C4 (amended): `allocate(0)` hits the `assert!(bytes > 0)` and aborts on
every arena, but `allocate_aligned` has no such assertion: on every arena
`allocate_aligned(0)` returns a (zero-length) byte range. -/
theorem claim_c4_zero_alloc :
    ∀ a : Arena, a.allocate 0 = none ∧ (a.allocate_aligned 0).isSome = true := by
  intro a
  constructor
  · rw [Arena.allocate]
    simp
  · rw [Arena.allocate_aligned, if_pos (by rw [is_pow_two_align])]
    dsimp only
    split
    · rfl
    · rfl

theorem claim_c4_witness :
    (Arena.new (fun _ => 7)).allocate 0 = none
      ∧ ((Arena.new (fun _ => 7)).allocate_aligned 0).isSome = true :=
  claim_c4_zero_alloc (Arena.new (fun _ => 7))

/-- C5: from `seek_to_first`, repeated `next` calls visit exactly the
inserted keys, each exactly once, in strictly increasing order, and the
cursor is invalid after the largest key. -/
theorem claim_c5_forward {ks : List K} {s : SkipList K}
    (hr : ReachableKeys ks s) :
    (forward_keys s).Pairwise (· < ·) ∧
    (forward_keys s).Perm ks ∧
    step_n s (forward_keys s).length (seek_to_first s) = none := by
  obtain ⟨L, hInv, hperm⟩ := reachable_good hr
  refine ⟨?_, ?_, forward_end_invalid hInv⟩
  · rw [forward_keys_eq hInv]
    exact keys_pairwise hInv
  · rw [forward_keys_eq hInv]
    exact hperm

theorem claim_c5_witness :
    (forward_keys wlist2).Pairwise (· < ·) ∧
    (forward_keys wlist2).Perm [2, 5] ∧
    step_n wlist2 (forward_keys wlist2).length (seek_to_first wlist2) = none := by
  have h1 : insert (mkSkipList Int) 2 (random_height fun _ => 1) = some wlist1 := rfl
  have h2 : insert wlist1 5 (random_height fun i => if i = 0 then 0 else 1)
      = some wlist2 := rfl
  have hr : ReachableKeys [2, 5] wlist2 :=
    ReachableKeys.step _ (ReachableKeys.step _ ReachableKeys.base h1) h2
  exact claim_c5_forward hr

/-- C6: from `seek_to_last`, repeated `prev` calls visit exactly the
inserted keys in strictly decreasing order and the cursor is invalid after
the smallest key; `prev` re-searches with `find_less_than`, which returns
the last node with key strictly less than the given key, or the head
(node 0) if no such node exists. -/
theorem claim_c6_backward {ks : List K} {s : SkipList K}
    (hr : ReachableKeys ks s) :
    (backward_keys s).Pairwise (· > ·) ∧
    (backward_keys s).Perm ks ∧
    prev_step_n s (backward_keys s).length (seek_to_last s) = none ∧
    (∀ k2 : K, find_less_than s k2
      = lastD ((chain_at s 0).filter (keyLT s k2)) 0) := by
  obtain ⟨L, hInv, hperm⟩ := reachable_good hr
  refine ⟨?_, ?_, backward_end_invalid hInv, ?_⟩
  · rw [backward_keys_eq hInv, List.pairwise_reverse]
    exact keys_pairwise hInv
  · rw [backward_keys_eq hInv]
    exact (List.reverse_perm _).trans hperm
  · intro k2
    have h0 := prevAt_observable hInv k2 (show 0 < MAX_HEIGHT by simp [MAX_HEIGHT])
    rw [prevAt, filter_h0 hInv (fun a ha => mem_low_L ha)] at h0
    rw [find_less_than_spec hInv]
    exact h0

theorem claim_c6_witness :
    (backward_keys wlist2).Pairwise (· > ·) ∧
    (backward_keys wlist2).Perm [2, 5] ∧
    prev_step_n wlist2 (backward_keys wlist2).length (seek_to_last wlist2) = none ∧
    (∀ k2 : Int, find_less_than wlist2 k2
      = lastD ((chain_at wlist2 0).filter (keyLT wlist2 k2)) 0) := by
  have h1 : insert (mkSkipList Int) 2 (random_height fun _ => 1) = some wlist1 := rfl
  have h2 : insert wlist1 5 (random_height fun i => if i = 0 then 0 else 1)
      = some wlist2 := rfl
  have hr : ReachableKeys [2, 5] wlist2 :=
    ReachableKeys.step _ (ReachableKeys.step _ ReachableKeys.base h1) h2
  exact claim_c6_backward hr

/-- C7 (counterexample to the claim as stated): the head carries the
placeholder key `K::default()`, which is compared by nothing in the code;
after inserting `-5` into a fresh Int list, the head's level-0 pointer
(level 0 is below the head's height) leads to a node whose key `-5` is
smaller than the head's key 0, so the invariant is false "including the
head". -/
theorem claim_c7_counterexample :
    nextAt wneg 0 0 = some 1 ∧ 0 < heightAt wneg 0 ∧
    keyAt wneg 0 = 0 ∧ keyAt wneg 1 = -5 ∧
    ¬ keyAt wneg 0 < keyAt wneg 1 := by decide

/-- C7 (amended): in every reachable state, for every node other than the
head sentinel and every level below its height, the forward pointer is
null or leads to a node with a strictly greater key.  (For the head the
property can fail: its placeholder key takes part in no comparison, and a
key smaller than it may be inserted.) -/
theorem claim_c7_sorted_links {ks : List K} {s : SkipList K}
    (hr : ReachableKeys ks s) :
    ∀ a, a ≠ 0 → a < s.nodes.length → ∀ level, level < heightAt s a →
      ∀ b, nextAt s a level = some b → keyAt s a < keyAt s b := by
  obtain ⟨L, hInv, _⟩ := reachable_good hr
  intro a ha0 halen
  have haL : a ∈ L := by
    rw [hInv.perm.mem_iff, List.mem_range'_1]
    have := inv_nodes_pos hInv
    omega
  exact sorted_next hInv a haL

theorem claim_c7_witness : keyAt wlist2 1 < keyAt wlist2 2 := by
  have h1 : insert (mkSkipList Int) 2 (random_height fun _ => 1) = some wlist1 := rfl
  have h2 : insert wlist1 5 (random_height fun i => if i = 0 then 0 else 1)
      = some wlist2 := rfl
  have hr : ReachableKeys [2, 5] wlist2 :=
    ReachableKeys.step _ (ReachableKeys.step _ ReachableKeys.base h1) h2
  exact claim_c7_sorted_links hr 1 (by decide) (by decide) 0 (by decide) 2 (by decide)

/-- C8: over any successful single-threaded sequence of
allocate/allocate_aligned calls on one arena, `memory_usage()` is at least
the cumulative user bytes requested; it never decreases at any successful
call; and each new block adds exactly `block_bytes + pointer_size` to it. -/
theorem claim_c8_memory_usage :
    (∀ (f : Nat → Nat) (reqs : List AReq) (a2 : Arena),
      run_reqs (Arena.new f) reqs = some a2 → sum_req reqs ≤ a2.memory_usage) ∧
    (∀ (a a2 : Arena) (r : AReq) (p : Nat),
      run_req a r = some (p, a2) → a.memory_usage ≤ a2.memory_usage) ∧
    (∀ (a : Arena) (b : Nat),
      ((allocate_new_block a b).2).memory_usage = a.memory_usage + (b + PTR_SIZE)) := by
  refine ⟨?_, ?_, ?_⟩
  · intro f reqs a2 hrun
    have := run_reqs_inv reqs (Arena.new f) 0 a2 hrun (by simp [Arena.new])
    omega
  · intro a a2 r p hreq
    exact run_req_mono hreq
  · intro a b
    rfl

theorem claim_c8_witness :
    sum_req wreqs ≤ warena.memory_usage ∧
    (Arena.new (fun _ => 0)).memory_usage
      ≤ (((Arena.new (fun _ => 0)).allocate 1).getD (0, Arena.new (fun _ => 0))).2.memory_usage ∧
    ((allocate_new_block (Arena.new (fun _ => 0)) 5).2).memory_usage
      = (Arena.new (fun _ => 0)).memory_usage + (5 + PTR_SIZE) := by
  refine ⟨claim_c8_memory_usage.1 (fun _ => 0) wreqs warena rfl, ?_, ?_⟩
  · exact claim_c8_memory_usage.2.1 (Arena.new (fun _ => 0)) _ (AReq.alloc 1) 0 rfl
  · exact claim_c8_memory_usage.2.2 (Arena.new (fun _ => 0)) 5

/-- C9: a successful `insert` with drawn height `H = random_height d` on a
reachable list writes, among the forward-pointer cells of pre-existing
nodes, exactly the level-`i` cells of `prev[i]` for `i < H` (those receive
the new node's address); every other cell, and every pre-existing node's
key and height, are unchanged. -/
theorem claim_c9_insert_frame {ks : List K} {s s2 : SkipList K} {k : K}
    (d : Nat → Nat) (hr : ReachableKeys ks s)
    (hin : insert s k (random_height d) = some s2) :
    (∀ a, a < s.nodes.length →
      keyAt s2 a = keyAt s a ∧ heightAt s2 a = heightAt s a ∧
      ∀ level,
        (∀ i, i < random_height d →
          ¬((insert_prev s k (random_height d)).getD i none = some a ∧ level = i)) →
        nextAt s2 a level = nextAt s a level) ∧
    (∀ i, i < random_height d →
      ∀ a, (insert_prev s k (random_height d)).getD i none = some a →
        nextAt s2 a i = some s.nodes.length) := by
  obtain ⟨L, hInv, _⟩ := reachable_good hr
  have hh2 : random_height d ≤ MAX_HEIGHT := (random_height_bounds d).2
  have hs2 : s2 = insert_node s k (random_height d) := insert_eq_some hin
  subst hs2
  refine ⟨?_, ?_⟩
  · intro a ha
    refine ⟨insert_node_key_lt s k _ ha, insert_node_hgt_lt s k _ ha, ?_⟩
    intro level hunt
    refine insert_node_cell_untouched s k _ ha ?_
    intro i hi hc
    refine hunt i hi ⟨?_, hc.2⟩
    rw [insert_prev_spec hInv hh2 i hi, hc.1, prev_addr_spec hInv hh2 hi]
  · intro i hi a hpa
    have hpa2 : a = prevAt s k L i := by
      rw [insert_prev_spec hInv hh2 i hi] at hpa
      simpa using hpa.symm
    rw [hpa2]
    have hw := insert_node_cell_written s k (random_height d) hi
      (by rw [prev_addr_spec hInv hh2 hi]; exact prevAt_lt hInv i)
      (by rw [prev_addr_spec hInv hh2 hi]
          exact prevAt_hgt hInv (lt_of_lt_of_le hi hh2))
    rwa [prev_addr_spec hInv hh2 hi] at hw

theorem claim_c9_witness :
    keyAt wlist2 1 = keyAt wlist1 1 ∧
    nextAt wlist2 0 0 = nextAt wlist1 0 0 ∧
    nextAt wlist2 1 0 = some 2 := by
  have h1 : insert (mkSkipList Int) 2 (random_height fun _ => 1) = some wlist1 := rfl
  have hr : ReachableKeys [2] wlist1 := ReachableKeys.step _ ReachableKeys.base h1
  have h2 : insert wlist1 5 (random_height fun i => if i = 0 then 0 else 1)
      = some wlist2 := rfl
  have hfr := claim_c9_insert_frame (fun i => if i = 0 then 0 else 1) hr h2
  refine ⟨(hfr.1 1 (by decide)).1, ?_, ?_⟩
  · exact (hfr.1 0 (by decide)).2.2 0 (by decide)
  · exact hfr.2 0 (by decide) 1 (by decide)

/-- C10: a call served by bumping the current block leaves `memory_usage`
unchanged; a fresh arena reports 0; and the fallback (which always obtains
a new block) is the only path that increases the counter, by
`block_bytes + pointer_size`. -/
theorem claim_c10_usage_frame :
    (∀ f : Nat → Nat, (Arena.new f).memory_usage = 0) ∧
    (∀ (a : Arena) (n : Nat), n ≠ 0 → n ≤ a.alloc_bytes_remaining →
      (a.allocate n).map (fun p => p.2.memory_usage) = some a.memory_usage) ∧
    (∀ (a : Arena) (n : Nat), n + align_slop a ≤ a.alloc_bytes_remaining →
      (a.allocate_aligned n).map (fun p => p.2.memory_usage) = some a.memory_usage) ∧
    (∀ (a : Arena) (n : Nat),
      ((allocate_fallback a n).2).memory_usage
        = a.memory_usage + ((if BLOCK_SIZE / 4 < n then n else BLOCK_SIZE) + PTR_SIZE) ∧
      a.memory_usage < ((allocate_fallback a n).2).memory_usage) := by
  refine ⟨fun f => rfl, ?_, ?_, ?_⟩
  · intro a n h0 hrem
    rw [Arena.allocate, if_neg h0, if_pos hrem]
    rfl
  · intro a n hrem
    rw [Arena.allocate_aligned, if_pos (by rw [is_pow_two_align]), if_pos hrem]
    rfl
  · intro a n
    refine ⟨allocate_fallback_usage a n, ?_⟩
    rw [allocate_fallback_usage a n]
    have hP : PTR_SIZE = 8 := rfl
    rw [hP]
    omega

theorem claim_c10_witness :
    (Arena.new (fun _ => 3)).memory_usage = 0 ∧
    (warena.allocate 5).map (fun p => p.2.memory_usage) = some warena.memory_usage ∧
    (warena.allocate_aligned 5).map (fun p => p.2.memory_usage)
      = some warena.memory_usage ∧
    ((allocate_fallback warena 9).2).memory_usage
      = warena.memory_usage + ((if BLOCK_SIZE / 4 < 9 then 9 else BLOCK_SIZE) + PTR_SIZE) := by
  refine ⟨claim_c10_usage_frame.1 (fun _ => 3), ?_, ?_, ?_⟩
  · exact claim_c10_usage_frame.2.1 warena 5 (by decide) (by decide)
  · exact claim_c10_usage_frame.2.2.1 warena 5 (by decide)
  · exact (claim_c10_usage_frame.2.2.2 warena 9).1

end SkipListRust
